import Mathlib

/-!
Verification of the Tissue Forge CUDA nonbonded runner
(`src/source/mdcore/src/tfRunner_cuda.cu`) against its specification.

The device code is shallowly embedded over exact rational arithmetic:
`float` values become `ℚ`, and wherever the code computes `sqrtf(r2)` or
`rsqrtf(r2)` the embedding is parametrised by the exact distance `r`
(with `ir = 1/r`), so that all arithmetic identities of the code are
preserved exactly.  Casts of nonnegative floats to integers truncate
toward zero, which is `Int.floor` on nonnegative values.
-/

set_option maxHeartbeats 1000000

namespace TFCuda

/-- A 3-vector of rationals, standing for the device `float3`. -/
structure Float3 where
  x : ℚ
  y : ℚ
  z : ℚ
deriving DecidableEq, Repr

/-- Componentwise difference, as in `float3 v{pvi.x - pvj.x, ...}`. -/
def sub3 (u v : Float3) : Float3 := ⟨u.x - v.x, u.y - v.y, u.z - v.z⟩

/-- Componentwise sum. -/
def add3 (u v : Float3) : Float3 := ⟨u.x + v.x, u.y + v.y, u.z + v.z⟩

/-- Scalar multiple of a 3-vector. -/
def smul3 (c : ℚ) (u : Float3) : Float3 := ⟨c * u.x, c * u.y, c * u.z⟩

/-- Dot product `u.x*v.x + u.y*v.y + u.z*v.z`. -/
def dot3 (u v : Float3) : ℚ := u.x * v.x + u.y * v.y + u.z * v.z

/-- Squared norm, the `r2` accumulated by the kernels. -/
def norm2 (u : Float3) : ℚ := dot3 u u

/-- Potential flags queried by the evaluators.  The numeric bit values of
`POTENTIAL_SCALED` and `POTENTIAL_SHIFTED` live in `tfPotential.h`, which is
not part of the sources at hand; only the two Boolean tests
`p.flags & POTENTIAL_SCALED` and `p.flags & POTENTIAL_SHIFTED` are relevant,
so the flag word is embedded as the pair of those Booleans. -/
structure PotFlags where
  scaled : Bool
  shifted : Bool
deriving DecidableEq, Repr

/-- Modelled from the spec: `potential_chunk` is defined in `tfPotential.h`
(not among the sources at hand) as the fixed per-interval coefficient block
size, `potential_degree + 3` with `potential_degree = 5`; the spec says the
evaluator applies "Horner's method over a fixed number of terms". -/
def potential_chunk : ℕ := 8

/-- Embedding of `cuda::PotentialData`: interval bounds `w = (a, b, r0_plusone)`,
index-formula coefficients `alpha`, interval count `n` and the flat
coefficient table `c`. -/
structure PotentialData where
  flags : PotFlags
  alpha0 : ℚ
  alpha1 : ℚ
  alpha2 : ℚ
  a : ℚ
  b : ℚ
  r0_plusone : ℚ
  n : ℤ
  c : List ℚ
deriving DecidableEq, Repr

/-- The Horner loop of the potential evaluators:
`for(k = 4; k < potential_chunk; k++) { eff = eff*x + ee; ee = ee*x + c[k]; }`,
folded over the coefficients `c[4..]` with state `(ee, eff)`. -/
def horner_loop (x : ℚ) : ℚ × ℚ → List ℚ → ℚ × ℚ
  | s, [] => s
  | (ee, eff), ck :: rest => horner_loop x (ee * x + ck, eff * x + ee) rest

/-- Shallow embedding of `potential_eval_ex_cuda(cuda::PotentialData p, float ri,
float rj, float r2, float*e, float*f)` (tfRunner_cuda.cu, lines 901-957).
The parameter `r` stands for `sqrtf(r2)` and `ir = 1/r` for `rsqrtf(r2)`.
Returns the pair `(e, f)` stored through the out-pointers.  Note the code
clamps `r` below `p.w.x` ("cutoff min value, eval at lowest func
interpolation") and returns zero only for `r > p.w.y` or interval index
beyond `p.n`. -/
def potential_eval_ex_cuda (p : PotentialData) (ri rj r : ℚ) : ℚ × ℚ :=
  let ir : ℚ := 1 / r
  let r1 : ℚ :=
    if p.flags.scaled then r / (ri + rj)
    else if p.flags.shifted then r - (ri + rj) + p.r0_plusone
    else r
  let rc : ℚ := if r1 < p.a then p.a else r1
  if p.b < rc then (0, 0)
  else
    let ind : ℤ := ⌊max 0 (p.alpha0 + rc * (p.alpha1 + rc * p.alpha2))⌋
    if p.n < ind then (0, 0)
    else
      let cb : List ℚ := (p.c.drop (ind.toNat * potential_chunk)).take potential_chunk
      let c0 : ℚ := cb.getD 0 0
      let c1 : ℚ := cb.getD 1 0
      let x : ℚ := (rc - c0) * c1
      let he : ℚ × ℚ := horner_loop x (cb.getD 2 0 * x + cb.getD 3 0, cb.getD 2 0) (cb.drop 4)
      (he.1, he.2 * c1 * ir)

/-- A concrete potential table over `[1, 2]` whose interval-0 polynomial is
nonzero at the left endpoint: `alpha = 0` selects interval 0, `c0 = 1, c1 = 1`
put `x = rc - 1`, and the trailing coefficient `5` makes the energy at
`rc = 1` equal to `5`. -/
def cexPot : PotentialData :=
  { flags := ⟨false, false⟩
    alpha0 := 0, alpha1 := 0, alpha2 := 0
    a := 1, b := 2, r0_plusone := 0
    n := 0
    c := [1, 1, 0, 0, 0, 0, 0, 5] }

/-- FLT_MIN, the smallest normalised single-precision float, used by the DPD
evaluator as a guard against division by a zero separation. -/
def flt_min : ℚ := 1 / 2 ^ 126

/-- Embedding of `cuda::DPDPotentialData`: interval `w = (a, b)` and the DPD
coefficient triple `dpd_cfs = (alpha, gamma, sigma)`. -/
structure DPDPotentialData where
  flags : PotFlags
  a : ℚ
  b : ℚ
  alpha : ℚ
  gamma : ℚ
  sigma : ℚ
deriving DecidableEq, Repr

/-- Shallow embedding of `dpd_eval_cuda(cuda::DPDPotentialData pot, ...)`
(tfRunner_cuda.cu, lines 1158-1199).  `sqrt_dt` stands for `sqrtf(cuda_dt)`
(so `delta = rsqrtf(cuda_dt) = 1/sqrt_dt`) and `r` for `sqrtf(r2)`.
Returns the energy written through `*e` and the updated force accumulator
`fi`; on early return (`r > pot.w.y`) the force accumulator is untouched. -/
def dpd_eval_cuda (pot : DPDPotentialData) (ri rj sqrt_dt : ℚ) (pvi pvj dx : Float3)
    (r : ℚ) (fi : Float3) : ℚ × Float3 :=
  let delta : ℚ := 1 / sqrt_dt
  let ro : ℚ := if r < flt_min then flt_min else r
  let r1 : ℚ := if pot.flags.shifted then r - (ri + rj) else r
  if pot.b < r1 then (0, fi)
  else
    let rr : ℚ := if pot.a ≤ r1 then r1 else pot.a
    let unit_vec : Float3 := ⟨dx.x / ro, dx.y / ro, dx.z / ro⟩
    let v : Float3 := sub3 pvi pvj
    let omega_c : ℚ := if rr < 0 then 1 else 1 - rr / pot.b
    let fc : ℚ := pot.alpha * omega_c
    let omega_d : ℚ := omega_c * omega_c
    let fd : ℚ := -pot.gamma * omega_d * dot3 unit_vec v
    let fr : ℚ := pot.sigma * omega_c * delta
    let f : ℚ := fc + fd + fr
    (0, ⟨fi.x + f * unit_vec.x, fi.y + f * unit_vec.y, fi.z + f * unit_vec.z⟩)

/-- The three flux kinds `FLUX_FICK`, `FLUX_SECRETE`, `FLUX_UPTAKE`. -/
inductive FluxKind where
  | fick
  | secrete
  | uptake
deriving DecidableEq, Repr

/-- One entry `i` of a `cuda::Flux`: the parallel arrays
`type_ids[i] = (a, b)`, `indices_a[i]`, `indices_b[i]`, `kinds[i]`,
`coef[i]`, `target[i]`, `decay_coef[i]` gathered into a record. -/
structure FluxTerm where
  type_a : ℕ
  type_b : ℕ
  index_a : ℕ
  index_b : ℕ
  kind : FluxKind
  coef : ℚ
  target : ℚ
  decay_coef : ℚ
deriving DecidableEq, Repr

/-- `flux_fick_cuda`: `*result *= flux.coef[i] * (si - sj)` (line 1624). -/
def flux_fick_cuda (t : FluxTerm) (si sj result : ℚ) : ℚ :=
  result * (t.coef * (si - sj))

/-- `flux_secrete_cuda` (line 1629): `q = coef*(si - target)`, gate
`scale = q > 0.f` (1 if positive else 0), `*result *= scale * q`. -/
def flux_secrete_cuda (t : FluxTerm) (si sj result : ℚ) : ℚ :=
  let q : ℚ := t.coef * (si - t.target)
  let scale : ℚ := if 0 < q then 1 else 0
  result * (scale * q)

/-- `flux_uptake_cuda` (line 1636): `q = coef*(target - sj)*si`, same gate. -/
def flux_uptake_cuda (t : FluxTerm) (si sj result : ℚ) : ℚ :=
  let q : ℚ := t.coef * (t.target - sj) * si
  let scale : ℚ := if 0 < q then 1 else 0
  result * (scale * q)

/-- The `switch(flux.kinds[i])` dispatch shared by both flux evaluators. -/
def flux_kind_apply (t : FluxTerm) (ssi ssj q : ℚ) : ℚ :=
  match t.kind with
  | .fick => flux_fick_cuda t ssi ssj q
  | .secrete => flux_secrete_cuda t ssi ssj q
  | .uptake => flux_uptake_cuda t ssi ssj q

/-- One iteration of the loop body of the one-sided
`flux_eval_ex_cuda(..., float *qvec_i)` (tfRunner_cuda.cu, lines 1643-1688):
branch on `type_i == flux.type_ids[i].a`, apply the kind dispatch to
`q = ∓term`, and accumulate
`qvec_i[qind] += q - 0.5 * flux.decay_coef[i] * states_i[qind]`. -/
def flux_eval_ex_cuda_term (cutoff r : ℚ) (states_i states_j : ℕ → ℚ) (type_i : ℕ)
    (qvec_i : ℕ → ℚ) (t : FluxTerm) : ℕ → ℚ :=
  let term : ℚ := (1 - r / cutoff) * (1 - r / cutoff)
  if type_i = t.type_a then
    let qind := t.index_a
    let q : ℚ := flux_kind_apply t (states_i qind) (states_j t.index_b) (-term)
    Function.update qvec_i qind
      (qvec_i qind + (q - 1 / 2 * t.decay_coef * states_i qind))
  else
    let qind := t.index_b
    let q : ℚ := flux_kind_apply t (states_j t.index_a) (states_i qind) term
    Function.update qvec_i qind
      (qvec_i qind + (q - 1 / 2 * t.decay_coef * states_i qind))

/-- The one-sided `flux_eval_ex_cuda` loop over the terms of the matched
flux (`for(int i = 0; i < flux.size; ++i)`). -/
def flux_eval_ex_cuda_one (fluxes : List FluxTerm) (cutoff r : ℚ)
    (states_i states_j : ℕ → ℚ) (type_i type_j : ℕ) (qvec_i : ℕ → ℚ) : ℕ → ℚ :=
  fluxes.foldl (flux_eval_ex_cuda_term cutoff r states_i states_j type_i) qvec_i

/-- Core of one iteration of the two-sided
`flux_eval_ex_cuda(..., float *qvec_i, float *qvec_j)` (lines 1690-1742)
after the pointers `si, sj, qi, qj` have been bound by the type branch:
`ssi = si[indices_a]`, `ssj = sj[indices_b]`,
`q = term * mult`, `half_decay = decay_coef * 0.5`,
`qi[indices_a] -= q + half_decay*ssi`, `qj[indices_b] += q - half_decay*ssj`.
The local `mult` is read by the kind helpers before ever being written
(`float mult; flux_fick_cuda(..., &mult)` multiplies it in place), so its
indeterminate initial contents are threaded through as `mult0`. -/
def flux_two_core (t : FluxTerm) (term mult0 : ℚ) (si sj qi qj : ℕ → ℚ) :
    (ℕ → ℚ) × (ℕ → ℚ) :=
  let ssi : ℚ := si t.index_a
  let ssj : ℚ := sj t.index_b
  let q : ℚ := term * flux_kind_apply t ssi ssj mult0
  let half_decay : ℚ := t.decay_coef * (1 / 2)
  (Function.update qi t.index_a (qi t.index_a - (q + half_decay * ssi)),
   Function.update qj t.index_b (qj t.index_b + (q - half_decay * ssj)))

/-- One iteration of the two-sided `flux_eval_ex_cuda` loop: the branch on
`type_i == flux.type_ids[i].a` swaps the roles of the two particles. -/
def flux_eval_ex_cuda_two_term (cutoff r : ℚ) (states_i states_j : ℕ → ℚ) (type_i : ℕ)
    (mult0 : ℚ) (qq : (ℕ → ℚ) × (ℕ → ℚ)) (t : FluxTerm) : (ℕ → ℚ) × (ℕ → ℚ) :=
  let term : ℚ := (1 - r / cutoff) * (1 - r / cutoff)
  if type_i = t.type_a then
    flux_two_core t term mult0 states_i states_j qq.1 qq.2
  else
    let c := flux_two_core t term mult0 states_j states_i qq.2 qq.1
    (c.2, c.1)

/-- The two-sided `flux_eval_ex_cuda` loop over the matched flux terms. -/
def flux_eval_ex_cuda_two (fluxes : List FluxTerm) (cutoff r : ℚ)
    (states_i states_j : ℕ → ℚ) (type_i type_j : ℕ) (mult0 : ℚ)
    (qvec_i qvec_j : ℕ → ℚ) : (ℕ → ℚ) × (ℕ → ℚ) :=
  fluxes.foldl (flux_eval_ex_cuda_two_term cutoff r states_i states_j type_i mult0)
    (qvec_i, qvec_j)

/-- The term-specific rate exactly as the spec words it (§4.6): Fick
`rate·(cᵢ−cⱼ)`; Secrete `rate·(cᵢ−target)` gated to zero when non-positive;
Uptake `rate·(target−cⱼ)·cᵢ` gated to zero when non-positive. -/
def spec_flux_rate (t : FluxTerm) (ci cj : ℚ) : ℚ :=
  match t.kind with
  | .fick => t.coef * (ci - cj)
  | .secrete => if 0 < t.coef * (ci - t.target) then t.coef * (ci - t.target) else 0
  | .uptake => if 0 < t.coef * (t.target - cj) * ci then t.coef * (t.target - cj) * ci else 0

/-- One flux sub-step for an isolated two-particle system as realised by the
GPU pipeline: each particle's flux accumulator is produced from zero by the
one-sided `flux_eval_ex_cuda` against the other particle's current state
(`runner_doself_state_cuda` / `runner_dopair_state_*_cuda`), and then
`runner_run_cuda_integrate_state_kernel` performs the explicit-Euler update
`state += dt_flux * flux` (no per-species constant flags set). -/
def fick_pair_step (t : FluxTerm) (cutoff r dt_flux : ℚ) (ti tj : ℕ)
    (s : (ℕ → ℚ) × (ℕ → ℚ)) : (ℕ → ℚ) × (ℕ → ℚ) :=
  let qi := flux_eval_ex_cuda_one [t] cutoff r s.1 s.2 ti tj (fun _ => 0)
  let qj := flux_eval_ex_cuda_one [t] cutoff r s.2 s.1 tj ti (fun _ => 0)
  (fun k => s.1 k + dt_flux * qi k, fun k => s.2 k + dt_flux * qj k)

/-- C1 (counterexample).  The tabulated evaluator applied below the interval
at `r = 1/2 < a = 1` returns energy `5`, not zero: out-of-range `r` below `a`
is clamped to `a` and interpolated, contradicting the claim that both sides
out of `[a,b]` yield exactly zero. -/
theorem tf_c1_below_a_nonzero :
    (1 : ℚ) / 2 < cexPot.a ∧ (potential_eval_ex_cuda cexPot 0 0 (1 / 2)).1 = 5 := by
  constructor
  · norm_num [cexPot]
  · norm_num [potential_eval_ex_cuda, cexPot, horner_loop, potential_chunk]

/-- C1 (amended).  For a plain (unscaled, unshifted) potential table over
`[a, b]` with `a ≤ b`: a distance strictly above `b` yields exactly zero
energy and zero force, while a distance below `a` is clamped to `a`: its
energy equals the energy evaluated at `a`, and its force differs from the
force at `a` only through the `1/r` factor (`r·f(r) = a·f(a)`). -/
theorem tf_c1_out_of_range (p : PotentialData) (ri rj r : ℚ)
    (hsc : p.flags.scaled = false) (hsh : p.flags.shifted = false)
    (hab : p.a ≤ p.b) :
    (p.b < r → potential_eval_ex_cuda p ri rj r = (0, 0)) ∧
    (0 < r → r < p.a →
      (potential_eval_ex_cuda p ri rj r).1 = (potential_eval_ex_cuda p ri rj p.a).1 ∧
      r * (potential_eval_ex_cuda p ri rj r).2 = p.a * (potential_eval_ex_cuda p ri rj p.a).2) := by
  constructor
  · intro hbr
    have hra : ¬ r < p.a := by
      intro h
      exact absurd (lt_trans hbr h) (not_lt.mpr hab)
    simp only [potential_eval_ex_cuda, hsc, hsh, Bool.false_eq_true, if_false, if_neg hra,
      if_pos hbr]
  · intro hr0 hra
    have hane : p.a ≠ 0 := ne_of_gt (lt_trans hr0 hra)
    have hrne : r ≠ 0 := ne_of_gt hr0
    have haa : ¬ p.a < p.a := lt_irrefl _
    simp only [potential_eval_ex_cuda, hsc, hsh, Bool.false_eq_true, if_false, if_pos hra,
      if_neg haa]
    by_cases hba : p.b < p.a
    · simp only [if_pos hba]
      constructor
      · trivial
      · ring
    · simp only [if_neg hba]
      by_cases hn : p.n < ⌊max 0 (p.alpha0 + p.a * (p.alpha1 + p.a * p.alpha2))⌋
      · simp only [if_pos hn]
        constructor
        · trivial
        · ring
      · simp only [if_neg hn]
        constructor
        · trivial
        · field_simp

/-- C1 (witness for the amended theorem).  On the concrete table `cexPot`,
`r = 3 > b = 2` evaluates to `(0, 0)`, and `r = 1/2 < a = 1` has the same
energy as `r = a` with forces related by the `1/r` factor. -/
theorem tf_c1_out_of_range_witness :
    potential_eval_ex_cuda cexPot 0 0 3 = (0, 0) ∧
    (potential_eval_ex_cuda cexPot 0 0 (1 / 2)).1 = (potential_eval_ex_cuda cexPot 0 0 cexPot.a).1 := by
  have h := tf_c1_out_of_range cexPot 0 0 3 rfl rfl (by norm_num [cexPot])
  have h2 := tf_c1_out_of_range cexPot 0 0 (1 / 2) rfl rfl (by norm_num [cexPot])
  exact ⟨h.1 (by norm_num [cexPot]),
    (h2.2 (by norm_num) (by norm_num [cexPot])).1⟩

/-- C8.  For a DPD interaction with a plain (unshifted) coefficient record and
a separation within range (`0 ≤ a ≤ r ≤ b`, `r` at least `FLT_MIN`), the
force added to the accumulator is `(fc + fd + fr) · unit_vec` with
conservative term `fc = alpha·(1 - r/b)`, dissipative term
`fd = -gamma·(1 - r/b)²·(unit_vec · (vi - vj))` and stochastic term
`fr = sigma·(1 - r/b)·(1/sqrt dt)`, the last scaled by the inverse square
root of the step size; the energy written is zero. -/
theorem tf_c8_dpd_force (pot : DPDPotentialData) (ri rj sqrt_dt : ℚ)
    (pvi pvj dx : Float3) (r : ℚ) (fi : Float3)
    (hsh : pot.flags.shifted = false)
    (ha0 : 0 ≤ pot.a) (har : pot.a ≤ r) (hrb : r ≤ pot.b) (hfm : flt_min ≤ r) :
    dpd_eval_cuda pot ri rj sqrt_dt pvi pvj dx r fi =
      (0,
        add3 fi (smul3
          (pot.alpha * (1 - r / pot.b) +
           -pot.gamma * ((1 - r / pot.b) * (1 - r / pot.b)) * dot3 (smul3 (1 / r) dx) (sub3 pvi pvj) +
           pot.sigma * (1 - r / pot.b) * (1 / sqrt_dt))
          (smul3 (1 / r) dx))) := by
  have hnb : ¬ pot.b < r := not_lt.mpr hrb
  have hfm2 : ¬ r < flt_min := not_lt.mpr hfm
  have hr0 : ¬ r < 0 := not_lt.mpr (le_trans ha0 har)
  simp only [dpd_eval_cuda, hsh, Bool.false_eq_true, if_false, if_neg hnb, if_pos har,
    if_neg hfm2, if_neg hr0, add3, smul3, sub3, dot3, Prod.mk.injEq, Float3.mk.injEq]
  refine ⟨trivial, by ring, by ring, by ring⟩

/-- The kind dispatch is linear in the accumulated `result` and, at
`result = 1`, computes exactly the spec's term-specific rate. -/
lemma flux_kind_apply_eq (t : FluxTerm) (ssi ssj q : ℚ) :
    flux_kind_apply t ssi ssj q = q * spec_flux_rate t ssi ssj := by
  cases hk : t.kind <;>
    simp only [flux_kind_apply, spec_flux_rate, hk, flux_fick_cuda, flux_secrete_cuda,
      flux_uptake_cuda] <;>
    split_ifs <;> ring

/-- One-sided flux evaluation, `type_i` matching the term's `a` side: the
accumulator at `indices_a` receives `q - 0.5*decay*states_i[indices_a]`. -/
lemma flux_one_a_side (t : FluxTerm) (cutoff r : ℚ) (si sj : ℕ → ℚ) (ti tj : ℕ)
    (q0 : ℕ → ℚ) (hti : ti = t.type_a) :
    flux_eval_ex_cuda_one [t] cutoff r si sj ti tj q0 t.index_a =
      q0 t.index_a +
        (-((1 - r / cutoff) * (1 - r / cutoff)) * spec_flux_rate t (si t.index_a) (sj t.index_b)
          - 1 / 2 * t.decay_coef * si t.index_a) := by
  simp only [flux_eval_ex_cuda_one, List.foldl, flux_eval_ex_cuda_term, if_pos hti,
    flux_kind_apply_eq, Function.update_same]

/-- One-sided flux evaluation from the `b`-side particle's point of view
(`states_i` are its own states, `states_j` the `a`-side particle's): the
accumulator at `indices_b` receives the opposite exchange. -/
lemma flux_one_b_side (t : FluxTerm) (cutoff r : ℚ) (si sj : ℕ → ℚ) (ti tj : ℕ)
    (q0 : ℕ → ℚ) (htj : tj ≠ t.type_a) :
    flux_eval_ex_cuda_one [t] cutoff r sj si tj ti q0 t.index_b =
      q0 t.index_b +
        ((1 - r / cutoff) * (1 - r / cutoff) * spec_flux_rate t (si t.index_a) (sj t.index_b)
          - 1 / 2 * t.decay_coef * sj t.index_b) := by
  simp only [flux_eval_ex_cuda_one, List.foldl, flux_eval_ex_cuda_term, if_neg htj,
    flux_kind_apply_eq, Function.update_same]

/-- C4.  For an evaluated pair within cutoff and a single matching term with
no decay, the one-sided flux evaluator exchanges exactly the smoothing weight
`(1 - r/cutoff)²` times the spec's term-specific gated rate: the `a`-side
particle's accumulator loses it and the `b`-side particle's gains it. -/
theorem tf_c4_flux_quantity (t : FluxTerm) (cutoff r : ℚ) (si sj : ℕ → ℚ) (ti tj : ℕ)
    (q0 : ℕ → ℚ) (hti : ti = t.type_a) (htj : tj ≠ t.type_a) (hdec : t.decay_coef = 0) :
    flux_eval_ex_cuda_one [t] cutoff r si sj ti tj q0 t.index_a =
      q0 t.index_a -
        (1 - r / cutoff) * (1 - r / cutoff) * spec_flux_rate t (si t.index_a) (sj t.index_b) ∧
    flux_eval_ex_cuda_one [t] cutoff r sj si tj ti q0 t.index_b =
      q0 t.index_b +
        (1 - r / cutoff) * (1 - r / cutoff) * spec_flux_rate t (si t.index_a) (sj t.index_b) := by
  rw [flux_one_a_side t cutoff r si sj ti tj q0 hti,
    flux_one_b_side t cutoff r si sj ti tj q0 htj, hdec]
  constructor <;> ring

/-- C4 (witness): a concrete Fick term (`coef = 3`, species 0 on both sides)
between particles of types 1 and 2 at `r = 1`, `cutoff = 2`, concentrations
`cᵢ = 5`, `cⱼ = 1`. -/
theorem tf_c4_flux_quantity_witness :
    flux_eval_ex_cuda_one [⟨1, 2, 0, 0, .fick, 3, 0, 0⟩] 2 1
        (fun _ => 5) (fun _ => 1) 1 2 (fun _ => 0) 0 =
      0 - (1 - 1 / 2) * (1 - 1 / 2) *
        spec_flux_rate ⟨1, 2, 0, 0, .fick, 3, 0, 0⟩ 5 1 := by
  have h := tf_c4_flux_quantity ⟨1, 2, 0, 0, .fick, 3, 0, 0⟩ 2 1
    (fun _ => 5) (fun _ => 1) 1 2 (fun _ => 0) rfl (by decide) rfl
  exact h.1

/-- C3.  For a two-particle system whose only matching flux term is Fick with
zero decay, the per-pair one-sided contributions are equal and opposite, so
the explicit-Euler sub-step integration preserves
`cᵢ[indices_a] + cⱼ[indices_b]` exactly, across any number of sub-steps. -/
theorem tf_c3_fick_conservation (t : FluxTerm) (cutoff r dtf : ℚ) (ti tj : ℕ)
    (si sj : ℕ → ℚ) (hdec : t.decay_coef = 0)
    (hti : ti = t.type_a) (htj : tj ≠ t.type_a) (n : ℕ) :
    ((fick_pair_step t cutoff r dtf ti tj)^[n] (si, sj)).1 t.index_a +
      ((fick_pair_step t cutoff r dtf ti tj)^[n] (si, sj)).2 t.index_b =
    si t.index_a + sj t.index_b := by
  induction n generalizing si sj with
  | zero => simp
  | succ n ih =>
    have hstep :
        (fick_pair_step t cutoff r dtf ti tj (si, sj)).1 t.index_a +
          (fick_pair_step t cutoff r dtf ti tj (si, sj)).2 t.index_b =
        si t.index_a + sj t.index_b := by
      simp only [fick_pair_step]
      rw [flux_one_a_side t cutoff r si sj ti tj _ hti,
        flux_one_b_side t cutoff r si sj ti tj _ htj, hdec]
      ring
    calc ((fick_pair_step t cutoff r dtf ti tj)^[n]
            (fick_pair_step t cutoff r dtf ti tj (si, sj))).1 t.index_a +
          ((fick_pair_step t cutoff r dtf ti tj)^[n]
            (fick_pair_step t cutoff r dtf ti tj (si, sj))).2 t.index_b
        = (fick_pair_step t cutoff r dtf ti tj (si, sj)).1 t.index_a +
            (fick_pair_step t cutoff r dtf ti tj (si, sj)).2 t.index_b := by
            exact ih _ _
      _ = si t.index_a + sj t.index_b := hstep

/-- C3 (witness): three sub-steps of the concrete Fick system of the C4
witness preserve the concentration sum `5 + 1 = 6`. -/
theorem tf_c3_fick_conservation_witness :
    ((fick_pair_step ⟨1, 2, 0, 0, .fick, 3, 0, 0⟩ 2 1 (1 / 10) 1 2)^[3]
        ((fun _ => 5), (fun _ => 1))).1 0 +
      ((fick_pair_step ⟨1, 2, 0, 0, .fick, 3, 0, 0⟩ 2 1 (1 / 10) 1 2)^[3]
        ((fun _ => 5), (fun _ => 1))).2 0 = 5 + 1 := by
  exact tf_c3_fick_conservation ⟨1, 2, 0, 0, .fick, 3, 0, 0⟩ 2 1 (1 / 10) 1 2
    (fun _ => 5) (fun _ => 1) rfl rfl (by decide) 3

/-- A particle's accumulator after the two-sided flux evaluator has been run
once against each entry of a list of neighbours (each a pair of the
neighbour's state vector and flux accumulator). -/
def flux_pair_sweep (t : FluxTerm) (cutoff r : ℚ) (ti tj : ℕ) (mult0 : ℚ)
    (si : ℕ → ℚ) (start : ℕ → ℚ) (neighbors : List ((ℕ → ℚ) × (ℕ → ℚ))) : ℕ → ℚ :=
  neighbors.foldl
    (fun qi nb => (flux_eval_ex_cuda_two [t] cutoff r si nb.1 ti tj mult0 qi nb.2).1)
    start

/-- Per-call shape of the two-sided flux evaluation on the `a` side. -/
lemma flux_two_call_a (t : FluxTerm) (cutoff r : ℚ) (si sj : ℕ → ℚ) (ti tj : ℕ)
    (mult0 : ℚ) (qi qj : ℕ → ℚ) (hti : ti = t.type_a) :
    (flux_eval_ex_cuda_two [t] cutoff r si sj ti tj mult0 qi qj).1 t.index_a =
      qi t.index_a -
        ((1 - r / cutoff) * (1 - r / cutoff) *
            flux_kind_apply t (si t.index_a) (sj t.index_b) mult0 +
          t.decay_coef * (1 / 2) * si t.index_a) ∧
    (flux_eval_ex_cuda_two [t] cutoff r si sj ti tj mult0 qi qj).2 t.index_b =
      qj t.index_b +
        ((1 - r / cutoff) * (1 - r / cutoff) *
            flux_kind_apply t (si t.index_a) (sj t.index_b) mult0 -
          t.decay_coef * (1 / 2) * sj t.index_b) := by
  simp only [flux_eval_ex_cuda_two, List.foldl, flux_eval_ex_cuda_two_term, if_pos hti,
    flux_two_core, Function.update_same]
  constructor <;> ring

/-- C9.  In the two-sided flux evaluation, each evaluated neighbour pair
subtracts `0.5 · decay_coef` times each side's own concentration from that
side's accumulator, in addition to the exchanged quantity `q` (equal and
opposite on the two sides); consequently, after sweeping a particle against
`m` neighbours, its accumulator has lost `m · 0.5 · decay_coef` times its own
concentration plus the sum of the per-pair exchanges — the decay is applied
once per interacting neighbour pair, scaling with the neighbour count. -/
theorem tf_c9_decay_per_pair (t : FluxTerm) (cutoff r : ℚ) (ti tj : ℕ) (mult0 : ℚ)
    (si : ℕ → ℚ) (hti : ti = t.type_a) :
    (∀ (sj qi qj : ℕ → ℚ),
      (flux_eval_ex_cuda_two [t] cutoff r si sj ti tj mult0 qi qj).1 t.index_a =
        qi t.index_a -
          ((1 - r / cutoff) * (1 - r / cutoff) *
              flux_kind_apply t (si t.index_a) (sj t.index_b) mult0 +
            1 / 2 * t.decay_coef * si t.index_a) ∧
      (flux_eval_ex_cuda_two [t] cutoff r si sj ti tj mult0 qi qj).2 t.index_b =
        qj t.index_b +
          ((1 - r / cutoff) * (1 - r / cutoff) *
              flux_kind_apply t (si t.index_a) (sj t.index_b) mult0 -
            1 / 2 * t.decay_coef * sj t.index_b)) ∧
    (∀ (start : ℕ → ℚ) (neighbors : List ((ℕ → ℚ) × (ℕ → ℚ))),
      flux_pair_sweep t cutoff r ti tj mult0 si start neighbors t.index_a =
        start t.index_a -
          (neighbors.map (fun nb =>
            (1 - r / cutoff) * (1 - r / cutoff) *
              flux_kind_apply t (si t.index_a) (nb.1 t.index_b) mult0)).sum -
          neighbors.length * (1 / 2 * t.decay_coef * si t.index_a)) := by
  constructor
  · intro sj qi qj
    have h := flux_two_call_a t cutoff r si sj ti tj mult0 qi qj hti
    constructor
    · rw [h.1]; ring
    · rw [h.2]; ring
  · intro start neighbors
    induction neighbors generalizing start with
    | nil => simp [flux_pair_sweep]
    | cons nb rest ih =>
      have hcall := flux_two_call_a t cutoff r si nb.1 ti tj mult0 start nb.2 hti
      simp only [flux_pair_sweep, List.foldl] at ih ⊢
      rw [ih ((flux_eval_ex_cuda_two [t] cutoff r si nb.1 ti tj mult0 start nb.2).1),
        hcall.1]
      simp only [List.map_cons, List.sum_cons, List.length_cons]
      push_cast
      ring

/-- C9 (witness): sweeping a particle at concentration 5 against two
neighbours (concentrations 1 and 2) with Fick coefficient 3, decay 4,
`mult0 = 7`: the accumulator ends at `-(21 + 63/4) - 2·10 = -227/4`. -/
theorem tf_c9_decay_per_pair_witness :
    flux_pair_sweep ⟨1, 2, 0, 0, .fick, 3, 0, 4⟩ 2 1 1 2 7 (fun _ => 5) (fun _ => 0)
        [((fun _ => 1), (fun _ => 0)), ((fun _ => 2), (fun _ => 0))] 0 = -227 / 4 := by
  have h := (tf_c9_decay_per_pair ⟨1, 2, 0, 0, .fick, 3, 0, 4⟩ 2 1 1 2 7
    (fun _ => 5) rfl).2 (fun _ => 0)
    [((fun _ => 1), (fun _ => 0)), ((fun _ => 2), (fun _ => 0))]
  rw [h]
  norm_num [flux_kind_apply, flux_fick_cuda]

/-- C8 (witness): concrete evaluation at `alpha = 2, gamma = 3, sigma = 4`,
`a = 0, b = 2, r = 1`, `dt = 1/4`. -/
theorem tf_c8_dpd_force_witness :
    dpd_eval_cuda ⟨⟨false, false⟩, 0, 2, 2, 3, 4⟩ 0 0 (1 / 2) ⟨1, 0, 0⟩ ⟨0, 0, 0⟩ ⟨1, 0, 0⟩ 1 ⟨0, 0, 0⟩ =
      (0,
        add3 ⟨0, 0, 0⟩ (smul3
          ((2 : ℚ) * (1 - 1 / 2) + -3 * ((1 - 1 / 2) * (1 - 1 / 2)) *
            dot3 (smul3 (1 / 1) ⟨1, 0, 0⟩) (sub3 ⟨1, 0, 0⟩ ⟨0, 0, 0⟩) +
            4 * (1 - 1 / 2) * (1 / (1 / 2)))
          (smul3 (1 / 1) ⟨1, 0, 0⟩))) := by
  exact tf_c8_dpd_force ⟨⟨false, false⟩, 0, 2, 2, 3, 4⟩ 0 0 (1 / 2) ⟨1, 0, 0⟩ ⟨0, 0, 0⟩ ⟨1, 0, 0⟩ 1
    ⟨0, 0, 0⟩ rfl (by norm_num) (by norm_num) (by norm_num) (by norm_num [flt_min])

/-- Modelled from the spec: the numeric value of
`state::SpeciesFlags::SPECIES_KONSTANT` is declared in `tfSpecies.h`, which
is not among the sources at hand.  The spec states that the per-species
"constant" flag suppresses integration for externally-fixed concentrations,
which together with the kernel's multiplier `1 - (flags & SPECIES_KONSTANT)`
pins the flag's value to the bit `1`. -/
def SPECIES_KONSTANT : ℕ := 1

/-- Shallow embedding of one entry of
`runner_run_cuda_integrate_state_kernel` (tfRunner_cuda.cu, lines 2929-2938):
`flux = fluxes[i] * (1.0 - float(flags & SPECIES_KONSTANT))`,
`states[i] = state + dt_flux * flux`, `fluxes[i] = 0.0`.
Returns the pair (new state, new flux accumulator). -/
def integrate_state_entry (state flux : ℚ) (flags : ℕ) (dt_flux : ℚ) : ℚ × ℚ :=
  let flux1 : ℚ := flux * (1 - ((Nat.land flags SPECIES_KONSTANT : ℕ) : ℚ))
  (state + dt_flux * flux1, 0)

/-- C5.  The state-integration kernel leaves a concentration unchanged
exactly when the species' constant flag is set (the accumulated flux being
multiplied by `1 - (flags & SPECIES_KONSTANT)`), adds `dt_flux` times the
accumulated flux otherwise, and always resets the flux accumulator to zero. -/
theorem tf_c5_constant_species (state flux dtf : ℚ) (flags : ℕ) :
    integrate_state_entry state flux flags dtf =
      (if Nat.land flags SPECIES_KONSTANT = 0 then state + dtf * flux else state, 0) := by
  have hl : Nat.land flags 1 = flags % 2 := Nat.and_one_is_mod flags
  simp only [integrate_state_entry, SPECIES_KONSTANT, hl]
  rcases Nat.mod_two_eq_zero_or_one flags with h | h <;> rw [h] <;> norm_num

/-- The kernel launches issued by one call of `cuda::engine_nonbond_cuda`
on one device after loading (tfRunner_cuda.cu, lines 3141-3163). -/
inductive KernelLaunch where
  | sortK
  | selfFluxOnly
  | pairLeftFluxOnly
  | pairRightFluxOnly
  | integrateState
  | selfForce (stateful : Bool)
  | pairLeftForce (stateful : Bool)
  | pairRightForce (stateful : Bool)
deriving DecidableEq, Repr

/-- Whether a launched kernel writes the force buffer: only
`runner_run_cuda_do_self_kernel` / `..._do_pair_left_kernel` /
`..._do_pair_right_kernel` take the `forces` buffer; the `*_fluxonly`
kernels (lines 2542, 2663, 2847) receive only the flux buffer, and the
sort and state-integration kernels touch sort lists and states. -/
def writes_forces : KernelLaunch → Bool
  | .selfForce _ => true
  | .pairLeftForce _ => true
  | .pairRightForce _ => true
  | _ => false

/-- The kernel-launch schedule of `cuda::engine_nonbond_cuda` (per device):
a sort kernel when rebuilding; then, when `nr_states > 0 && nr_fluxsteps > 1`,
the loop `for(step_flux = 0; step_flux < nr_fluxsteps - 1; step_flux++)`
launching the three flux-only kernels followed by the state-integration
kernel; then the three self/pair force kernels, stateful when
`nr_states > 0`. -/
def engine_nonbond_cuda_schedule (verlet_rebuild : Bool) (nr_states nr_fluxsteps : ℕ) :
    List KernelLaunch :=
  (if verlet_rebuild then [.sortK] else []) ++
  (if 0 < nr_states ∧ 1 < nr_fluxsteps then
    (List.replicate (nr_fluxsteps - 1)
      ([.selfFluxOnly, .pairLeftFluxOnly, .pairRightFluxOnly, .integrateState] :
        List KernelLaunch)).join
   else []) ++
  (if 0 < nr_states then
    [.selfForce true, .pairLeftForce true, .pairRightForce true]
   else [.selfForce false, .pairLeftForce false, .pairRightForce false])

/-- Counting occurrences in a joined replicate. -/
lemma count_join_replicate {α : Type} [DecidableEq α] (m : ℕ) (L : List α) (x : α) :
    ((List.replicate m L).flatten.count x) = m * L.count x := by
  induction m with
  | zero => simp
  | succ m ih =>
    simp only [List.replicate_succ, List.flatten_cons, List.count_append, ih]
    ring

/-- C6.  With at least one species and `N > 1` flux sub-steps configured,
one call of the per-step entry point launches exactly `N - 1` intermediate
rounds — each the three flux-only kernels followed by one explicit-Euler
state-integration kernel, none of which writes forces — followed by the
single final combined (stateful) force-plus-flux self/pair evaluation. -/
theorem tf_c6_fluxstep_schedule (s N : ℕ) (hs : 0 < s) (hN : 1 < N) :
    engine_nonbond_cuda_schedule false s N =
      (List.replicate (N - 1)
        ([.selfFluxOnly, .pairLeftFluxOnly, .pairRightFluxOnly, .integrateState] :
          List KernelLaunch)).flatten ++
        [.selfForce true, .pairLeftForce true, .pairRightForce true] ∧
    (engine_nonbond_cuda_schedule false s N).count .integrateState = N - 1 ∧
    ∀ l ∈ (List.replicate (N - 1)
        ([.selfFluxOnly, .pairLeftFluxOnly, .pairRightFluxOnly, .integrateState] :
          List KernelLaunch)).flatten, writes_forces l = false := by
  have hsch : engine_nonbond_cuda_schedule false s N =
      (List.replicate (N - 1)
        ([.selfFluxOnly, .pairLeftFluxOnly, .pairRightFluxOnly, .integrateState] :
          List KernelLaunch)).flatten ++
        [.selfForce true, .pairLeftForce true, .pairRightForce true] := by
    simp only [engine_nonbond_cuda_schedule, if_pos (And.intro hs hN), if_pos hs,
      Bool.false_eq_true, if_false, List.nil_append]
  refine ⟨hsch, ?_, ?_⟩
  · rw [hsch]
    simp +decide [List.count_append, count_join_replicate, List.count_cons, List.count_nil]
  · intro l hl
    rcases List.mem_flatten.mp hl with ⟨L, hL, hlL⟩
    have hLr := List.eq_of_mem_replicate hL
    subst hLr
    fin_cases hlL <;> rfl

/-- C6 (witness): the concrete schedule for one species and three flux
sub-steps. -/
theorem tf_c6_fluxstep_schedule_witness :
    (engine_nonbond_cuda_schedule false 1 3).count .integrateState = 2 := by
  exact (tf_c6_fluxstep_schedule 1 3 (by decide) (by decide)).2.1

/-- One entry of a per-cell, per-direction sort list as packed by
`runner_dosort_cuda` (line 1778): the particle slot `sort >> 16` and the
quantized projected position `sort & 0xffff`,
`(unsigned int)(cuda_dscale * (nshift + pix.x*shift[0] + ...))`. -/
structure SortEntry where
  idx : ℕ
  key : ℤ
deriving DecidableEq, Repr

/-- The inner loop of `runner_dopair_left_cuda` (line 1831) for one fixed
particle of the first cell walks the second cell's sort list from its tail
inward, `for(k = count_j-1; k >= 0 && (sort_j[k]&0xffff) + dshift <
cuda_dmaxdist + di; k--)`: the entries evaluated are the maximal prefix of
the reversed list on which the early-termination test holds. -/
def dopair_left_walk (dmaxdist dshift di : ℤ) (sort_j : List SortEntry) : List SortEntry :=
  sort_j.reverse.takeWhile (fun ej => decide (ej.key + dshift < dmaxdist + di))

/-- The inner loop of `runner_dopair_right_cuda` (line 1941) walks the second
cell's sort list from its head,
`for(k = 0; k < count_j && di + dshift <= cuda_dmaxdist + (sort_j[k]&0xffff); k++)`. -/
def dopair_right_walk (dmaxdist dshift di : ℤ) (sort_j : List SortEntry) : List SortEntry :=
  sort_j.takeWhile (fun ej => decide (di + dshift ≤ dmaxdist + ej.key))

/-- Lagrange form of the Cauchy-Schwarz inequality in three dimensions. -/
lemma dot3_sq_le (v n : Float3) : dot3 v n ^ 2 ≤ norm2 v * norm2 n := by
  simp only [dot3, norm2]
  nlinarith [sq_nonneg (v.x * n.y - v.y * n.x), sq_nonneg (v.x * n.z - v.z * n.x),
    sq_nonneg (v.y * n.z - v.z * n.y)]

/-- Soundness of the left-walk early-termination test: when the quantized
test fails for a pair (with keys `⌊dscale·(nshift + pos·n)⌋`, shift key
`⌊dscale·(sh·n)⌋` and bound `dmaxdist = ⌊2 + dscale·cutoff⌋`, `n` a unit
vector), the true squared separation `|pi - sh - pj|²` is at least
`cutoff²`, so the skipped pair is not within cutoff. -/
lemma skip_left_far (dscale cutoff nshift : ℚ) (n sh pvi pvj : Float3)
    (hds : 0 < dscale) (hn : norm2 n = 1) (hc : 0 ≤ cutoff)
    (hskip : ¬(⌊dscale * (nshift + dot3 pvj n)⌋ + ⌊dscale * dot3 sh n⌋
        < ⌊2 + dscale * cutoff⌋ + ⌊dscale * (nshift + dot3 pvi n)⌋)) :
    cutoff ^ 2 ≤ norm2 (sub3 (sub3 pvi sh) pvj) := by
  have h5 : (⌊2 + dscale * cutoff⌋ : ℚ) + ⌊dscale * (nshift + dot3 pvi n)⌋ ≤
      (⌊dscale * (nshift + dot3 pvj n)⌋ : ℚ) + ⌊dscale * dot3 sh n⌋ := by
    exact_mod_cast not_lt.mp hskip
  have hA := Int.floor_le (dscale * (nshift + dot3 pvj n))
  have hB := Int.floor_le (dscale * dot3 sh n)
  have hD := Int.sub_one_lt_floor (2 + dscale * cutoff)
  have hC := Int.sub_one_lt_floor (dscale * (nshift + dot3 pvi n))
  have hfac : dscale * (dot3 pvj n + dot3 sh n - dot3 pvi n) =
      dscale * (nshift + dot3 pvj n) + dscale * dot3 sh n -
        dscale * (nshift + dot3 pvi n) := by ring
  have hmul : dscale * cutoff < dscale * (dot3 pvj n + dot3 sh n - dot3 pvi n) := by
    rw [hfac]; linarith
  have hproj : cutoff < dot3 pvj n + dot3 sh n - dot3 pvi n :=
    lt_of_mul_lt_mul_left hmul (le_of_lt hds)
  have hdot : dot3 (sub3 (sub3 pvi sh) pvj) n =
      -(dot3 pvj n + dot3 sh n - dot3 pvi n) := by
    simp only [dot3, sub3]; ring
  have hcs := dot3_sq_le (sub3 (sub3 pvi sh) pvj) n
  rw [hn, mul_one] at hcs
  have hsq : (dot3 (sub3 (sub3 pvi sh) pvj) n) ^ 2 =
      (dot3 pvj n + dot3 sh n - dot3 pvi n) ^ 2 := by
    rw [hdot]; ring
  nlinarith [hproj, hc, hcs, hsq]

/-- Soundness of the right-walk early-termination test, with the first
cell's particles shifted by `+sh`. -/
lemma skip_right_far (dscale cutoff nshift : ℚ) (n sh pvi pvj : Float3)
    (hds : 0 < dscale) (hn : norm2 n = 1) (hc : 0 ≤ cutoff)
    (hskip : ¬(⌊dscale * (nshift + dot3 pvi n)⌋ + ⌊dscale * dot3 sh n⌋
        ≤ ⌊2 + dscale * cutoff⌋ + ⌊dscale * (nshift + dot3 pvj n)⌋)) :
    cutoff ^ 2 ≤ norm2 (sub3 (add3 pvi sh) pvj) := by
  have hA := Int.sub_one_lt_floor (dscale * (nshift + dot3 pvj n))
  have hB := Int.floor_le (dscale * dot3 sh n)
  have hD := Int.sub_one_lt_floor (2 + dscale * cutoff)
  have hC := Int.floor_le (dscale * (nshift + dot3 pvi n))
  have hZ : (⌊2 + dscale * cutoff⌋ : ℚ) + ⌊dscale * (nshift + dot3 pvj n)⌋ + 1 ≤
      (⌊dscale * (nshift + dot3 pvi n)⌋ : ℚ) + ⌊dscale * dot3 sh n⌋ := by
    have h0 := not_le.mp hskip
    have h1 : ⌊2 + dscale * cutoff⌋ + ⌊dscale * (nshift + dot3 pvj n)⌋ + 1 ≤
        ⌊dscale * (nshift + dot3 pvi n)⌋ + ⌊dscale * dot3 sh n⌋ := by omega
    exact_mod_cast h1
  have hfac : dscale * (dot3 pvi n + dot3 sh n - dot3 pvj n) =
      dscale * (nshift + dot3 pvi n) + dscale * dot3 sh n -
        dscale * (nshift + dot3 pvj n) := by ring
  have hmul : dscale * cutoff < dscale * (dot3 pvi n + dot3 sh n - dot3 pvj n) := by
    rw [hfac]; linarith
  have hproj : cutoff < dot3 pvi n + dot3 sh n - dot3 pvj n :=
    lt_of_mul_lt_mul_left hmul (le_of_lt hds)
  have hdot : dot3 (sub3 (add3 pvi sh) pvj) n =
      dot3 pvi n + dot3 sh n - dot3 pvj n := by
    simp only [dot3, sub3, add3]; ring
  have hcs := dot3_sq_le (sub3 (add3 pvi sh) pvj) n
  rw [hn, mul_one] at hcs
  have hsq : (dot3 (sub3 (add3 pvi sh) pvj) n) ^ 2 =
      (dot3 pvi n + dot3 sh n - dot3 pvj n) ^ 2 := by
    rw [hdot]
  nlinarith [hproj, hc, hcs, hsq]

/-- In a list sorted by `R`, if a predicate propagates backwards along `R`
and holds at a member, that member lies in the `takeWhile` prefix. -/
lemma mem_takeWhile_of_sorted {α : Type} (R : α → α → Prop) (p : α → Bool)
    (hmono : ∀ a b, R a b → p b = true → p a = true) :
    ∀ (l : List α), l.Pairwise R → ∀ x ∈ l, p x = true → x ∈ l.takeWhile p := by
  intro l
  induction l with
  | nil => intro _ x hx; exact absurd hx (List.not_mem_nil x)
  | cons a rest ih =>
    intro hl x hx hpx
    rcases List.pairwise_cons.mp hl with ⟨hra, hrest⟩
    rcases List.mem_cons.mp hx with hxa | hxr
    · have hpa : p a = true := hxa ▸ hpx
      rw [List.takeWhile_cons_of_pos hpa, hxa]
      exact List.mem_cons_self _ _
    · have hpa : p a = true := hmono a x (hra x hxr) hpx
      rw [List.takeWhile_cons_of_pos hpa]
      exact List.mem_cons_of_mem a (ih hrest x hxr hpx)

/-- In a list sorted by `R` with a backward-propagating predicate, every
element of the `dropWhile` suffix falsifies the predicate. -/
lemma dropWhile_false_of_sorted {α : Type} (R : α → α → Prop) (p : α → Bool)
    (hmono : ∀ a b, R a b → p b = true → p a = true) :
    ∀ (l : List α), l.Pairwise R → ∀ x ∈ l.dropWhile p, p x = false := by
  intro l
  induction l with
  | nil => intro _ x hx; simp at hx
  | cons a rest ih =>
    intro hl x hx
    rcases List.pairwise_cons.mp hl with ⟨hra, hrest⟩
    by_cases hpa : p a = true
    · rw [List.dropWhile_cons_of_pos hpa] at hx
      exact ih hrest x hx
    · rw [List.dropWhile_cons_of_neg hpa] at hx
      rcases List.mem_cons.mp hx with hxa | hxr
      · rw [hxa]
        exact Bool.eq_false_iff.mpr hpa
      · by_cases hpx : p x = true
        · exact absurd (hmono a x (hra x hxr) hpx) hpa
        · exact Bool.eq_false_iff.mpr hpx

/-- C2.  The early-termination tests of `runner_dopair_left_cuda` and
`runner_dopair_right_cuda` never skip a pair that is actually within cutoff:
with well-formed quantized keys (`⌊dscale·(nshift + pos·n)⌋` along a unit
direction `n`, `dshift = ⌊dscale·(sh·n)⌋`, `dmaxdist = ⌊2 + dscale·cutoff⌋`)
and the second cell's sort list sorted descending by key, every particle of
the second cell whose true squared separation from the fixed first-cell
particle is below `cutoff²` is reached by the walk, in both the left
(positions shifted by `-sh`) and the right (positions shifted by `+sh`)
kernels. -/
theorem tf_c2_walk_complete (dscale cutoff nshift : ℚ) (n sh : Float3)
    (pos_i pos_j : ℕ → Float3) (sort_j : List SortEntry) (ei ej : SortEntry)
    (hds : 0 < dscale) (hn : norm2 n = 1) (hc : 0 ≤ cutoff)
    (hkey_i : ei.key = ⌊dscale * (nshift + dot3 (pos_i ei.idx) n)⌋)
    (hkeys_j : ∀ e ∈ sort_j, e.key = ⌊dscale * (nshift + dot3 (pos_j e.idx) n)⌋)
    (hsorted : sort_j.Pairwise (fun a b => b.key ≤ a.key))
    (hmem : ej ∈ sort_j) :
    (norm2 (sub3 (sub3 (pos_i ei.idx) sh) (pos_j ej.idx)) < cutoff ^ 2 →
      ej ∈ dopair_left_walk ⌊2 + dscale * cutoff⌋ ⌊dscale * dot3 sh n⌋ ei.key sort_j) ∧
    (norm2 (sub3 (add3 (pos_i ei.idx) sh) (pos_j ej.idx)) < cutoff ^ 2 →
      ej ∈ dopair_right_walk ⌊2 + dscale * cutoff⌋ ⌊dscale * dot3 sh n⌋ ei.key sort_j) := by
  constructor
  · intro hnear
    have hp : (fun e : SortEntry =>
        decide (e.key + ⌊dscale * dot3 sh n⌋ < ⌊2 + dscale * cutoff⌋ + ei.key)) ej = true := by
      simp only [decide_eq_true_eq]
      by_contra hskip
      rw [hkeys_j ej hmem, hkey_i] at hskip
      exact absurd hnear (not_lt.mpr
        (skip_left_far dscale cutoff nshift n sh (pos_i ei.idx) (pos_j ej.idx)
          hds hn hc hskip))
    exact mem_takeWhile_of_sorted (fun a b => a.key ≤ b.key) _
      (fun a b hab hpb => by
        simp only [decide_eq_true_eq] at hpb ⊢
        omega)
      sort_j.reverse (List.pairwise_reverse.mpr hsorted)
      ej (List.mem_reverse.mpr hmem) hp
  · intro hnear
    have hp : (fun e : SortEntry =>
        decide (ei.key + ⌊dscale * dot3 sh n⌋ ≤ ⌊2 + dscale * cutoff⌋ + e.key)) ej = true := by
      simp only [decide_eq_true_eq]
      by_contra hskip
      rw [hkeys_j ej hmem, hkey_i] at hskip
      exact absurd hnear (not_lt.mpr
        (skip_right_far dscale cutoff nshift n sh (pos_i ei.idx) (pos_j ej.idx)
          hds hn hc hskip))
    exact mem_takeWhile_of_sorted (fun a b => b.key ≤ a.key) _
      (fun a b hab hpb => by
        simp only [decide_eq_true_eq] at hpb ⊢
        omega)
      sort_j hsorted
      ej hmem hp

/-- C2 (witness): concrete instance with `dscale = 1`, `cutoff = 1`,
direction `x`, zero shift, both particles at projected distance `1/2`:
the within-cutoff pair is reached by both walks. -/
theorem tf_c2_walk_complete_witness :
    (⟨0, 0⟩ : SortEntry) ∈ dopair_left_walk 3 0 0 [⟨0, 0⟩] ∧
    (⟨0, 0⟩ : SortEntry) ∈ dopair_right_walk 3 0 0 [⟨0, 0⟩] := by
  have h := tf_c2_walk_complete 1 1 0 ⟨1, 0, 0⟩ ⟨0, 0, 0⟩
    (fun _ => ⟨0, 0, 0⟩) (fun _ => ⟨1 / 2, 0, 0⟩) [⟨0, 0⟩] ⟨0, 0⟩ ⟨0, 0⟩
    (by norm_num) (by norm_num [norm2, dot3]) (by norm_num)
    (by norm_num [dot3])
    (by intro e he; simp at he; rw [he]; norm_num [dot3])
    (by simp) (by simp)
  have hfloor3 : ⌊(2 : ℚ) + 1 * 1⌋ = 3 := by norm_num
  have hfloor0 : ⌊(1 : ℚ) * dot3 ⟨0, 0, 0⟩ ⟨1, 0, 0⟩⌋ = 0 := by norm_num [dot3]
  constructor
  · have h1 := h.1 (by norm_num [norm2, dot3, sub3])
    rwa [hfloor3, hfloor0] at h1
  · have h2 := h.2 (by norm_num [norm2, dot3, sub3, add3])
    rwa [hfloor3, hfloor0] at h2

/-- The potential energy accumulated by `runner_doself_cuda` (lines
2167-2252): for every ordered pair `i ≠ k` of slots whose squared separation
is below `cuda_cutoff2`, the energy stored by
`potential_eval_super_ex_cuda`, abstracted as the pair function `ee` (its
value depends only on the two particles' squared separation, radii and type
pair). -/
def runner_doself_cuda_epot (count : ℕ) (pos : ℕ → Float3) (cutoff2 : ℚ)
    (ee : ℕ → ℕ → ℚ) : ℚ :=
  ∑ i in Finset.range count, ∑ k in Finset.range count,
    (if i ≠ k ∧ norm2 (sub3 (pos i) (pos k)) < cutoff2 then ee i k else 0)

/-- The potential energy accumulated by `runner_dopair_left_cuda` (lines
1802-1896): the outer loop runs over the first cell's sort entries (its
positions shifted by `-shift`), the inner loop is the early-terminated walk
over the second cell's sort list, gated by `r2 < cuda_cutoff2`. -/
def runner_dopair_left_cuda_epot (pos_i pos_j : ℕ → Float3) (sh : Float3)
    (cutoff2 : ℚ) (dmaxdist dshift : ℤ) (sort_i sort_j : List SortEntry)
    (ee : ℕ → ℕ → ℚ) : ℚ :=
  (sort_i.map (fun ei =>
    ((dopair_left_walk dmaxdist dshift ei.key sort_j).map (fun ej =>
      if norm2 (sub3 (sub3 (pos_i ei.idx) sh) (pos_j ej.idx)) < cutoff2
      then ee ei.idx ej.idx else 0)).sum)).sum

/-- The potential energy accumulated by `runner_dopair_right_cuda` (lines
1912-2006): as the left kernel but with the first cell's positions shifted
by `+shift` and the forward walk. -/
def runner_dopair_right_cuda_epot (pos_i pos_j : ℕ → Float3) (sh : Float3)
    (cutoff2 : ℚ) (dmaxdist dshift : ℤ) (sort_i sort_j : List SortEntry)
    (ee : ℕ → ℕ → ℚ) : ℚ :=
  (sort_i.map (fun ei =>
    ((dopair_right_walk dmaxdist dshift ei.key sort_j).map (fun ej =>
      if norm2 (sub3 (add3 (pos_i ei.idx) sh) (pos_j ej.idx)) < cutoff2
      then ee ei.idx ej.idx else 0)).sum)).sum

/-- List-range sums agree with `Finset.range` sums. -/
lemma sum_map_range (n : ℕ) (f : ℕ → ℚ) :
    ((List.range n).map f).sum = ∑ i in Finset.range n, f i := by
  induction n with
  | zero => simp
  | succ n ih =>
    rw [List.range_succ, List.map_append, List.sum_append, Finset.sum_range_succ, ih]
    simp

/-- Summing over the sort entries of a cell, a function of the particle slot
alone sums to its range sum, given that the sort list holds a permutation of
the slots. -/
lemma sum_map_idx (l : List SortEntry) (m : ℕ)
    (hperm : (l.map SortEntry.idx).Perm (List.range m)) (g : ℕ → ℚ) :
    (l.map (fun e => g e.idx)).sum = ∑ i in Finset.range m, g i := by
  have h1 : l.map (fun e => g e.idx) = (l.map SortEntry.idx).map g := by
    rw [List.map_map]; rfl
  rw [h1, (hperm.map g).sum_eq, sum_map_range]

/-- A `takeWhile` prefix sums like the whole list when the summand vanishes
wherever the predicate fails, provided the list is sorted and the predicate
propagates backwards. -/
lemma takeWhile_sum_eq {α : Type} (p : α → Bool) (R : α → α → Prop) (l : List α)
    (hl : l.Pairwise R) (hmono : ∀ a b, R a b → p b = true → p a = true)
    (g : α → ℚ) (hfar : ∀ e ∈ l, p e = false → g e = 0) :
    ((l.takeWhile p).map g).sum = (l.map g).sum := by
  conv_rhs => rw [← List.takeWhile_append_dropWhile p l]
  rw [List.map_append, List.sum_append]
  have hzero : ((l.dropWhile p).map g).sum = 0 := by
    apply List.sum_eq_zero
    intro x hx
    rcases List.mem_map.mp hx with ⟨e, he, hge⟩
    have hpe := dropWhile_false_of_sorted R p hmono l hl e he
    have hel : e ∈ l := by
      rw [← List.takeWhile_append_dropWhile p l]
      exact List.mem_append.mpr (Or.inr he)
    rw [← hge]
    exact hfar e hel hpe
  rw [hzero, add_zero]

/-- Squared separations are symmetric in the two endpoints. -/
lemma norm2_sub3_comm (a b : Float3) : norm2 (sub3 a b) = norm2 (sub3 b a) := by
  simp only [norm2, dot3, sub3]; ring

/-- The right kernel's shifted separation has the same squared norm as the
left kernel's: `|(b + s) - a|² = |(a - s) - b|²`. -/
lemma norm2_right_eq_left (a b s : Float3) :
    norm2 (sub3 (add3 b s) a) = norm2 (sub3 (sub3 a s) b) := by
  simp only [norm2, dot3, sub3, add3]; ring

/-- An off-diagonal double sum of a symmetric summand is twice the
strictly-upper-triangular sum. -/
lemma sum_off_diag_eq_twice (count : ℕ) (f : ℕ → ℕ → ℚ)
    (hsym : ∀ i k, f i k = f k i) :
    ∑ i in Finset.range count, ∑ k in Finset.range count,
        (if i ≠ k then f i k else 0) =
      2 * ∑ i in Finset.range count, ∑ k in Finset.range count,
        (if i < k then f i k else 0) := by
  have hsplit : ∀ i k : ℕ, (if i ≠ k then f i k else 0) =
      (if i < k then f i k else 0) + (if k < i then f i k else 0) := by
    intro i k
    rcases lt_trichotomy i k with h | h | h
    · rw [if_pos (ne_of_lt h), if_pos h, if_neg (not_lt.mpr (le_of_lt h)), add_zero]
    · rw [if_neg (by rw [h]; exact fun hne => hne rfl), if_neg (by rw [h]; exact lt_irrefl k),
        if_neg (by rw [h]; exact lt_irrefl k), add_zero]
    · rw [if_pos (Ne.symm (ne_of_lt h)), if_neg (not_lt.mpr (le_of_lt h)), if_pos h,
        zero_add]
  have hswap : ∑ i in Finset.range count, ∑ k in Finset.range count,
      (if k < i then f i k else 0) =
      ∑ i in Finset.range count, ∑ k in Finset.range count,
        (if i < k then f i k else 0) := by
    rw [Finset.sum_comm]
    refine Finset.sum_congr rfl (fun i _ => Finset.sum_congr rfl (fun k _ => ?_))
    rw [hsym]
  simp_rw [hsplit, Finset.sum_add_distrib]
  rw [hswap]
  ring

/-- C10.  Energy accounting of the Self and Pair kernels
(`runner_run_cuda_do_self_kernel`, `..._do_pair_left_kernel`,
`..._do_pair_right_kernel`, each ending in
`atomicAdd(&cuda_epot, epot * 0.5f)`): the self loop visits both `(i,k)` and
`(k,i)`, so half its accumulated energy is the sum over unique unordered
in-cell pairs within cutoff; the left and right pair kernels each visit a
cell pair once from opposite sides (the right kernel swapping the two cells
and the shift sign, which preserves the squared separation and — through the
symmetric type-pair potential tables — the evaluated energy, whence its
energy function is the transpose of the left kernel's), so their halves sum
to one copy of each unique cross-cell pair within cutoff. -/
theorem tf_c10_energy_counted_once
    (dscale cutoff nshift : ℚ) (n sh : Float3)
    (counti countj : ℕ) (pos_i pos_j : ℕ → Float3)
    (sort_i sort_j : List SortEntry)
    (eeS eeX : ℕ → ℕ → ℚ)
    (hds : 0 < dscale) (hn : norm2 n = 1) (hc : 0 ≤ cutoff)
    (hkeys_i : ∀ e ∈ sort_i, e.key = ⌊dscale * (nshift + dot3 (pos_i e.idx) n)⌋)
    (hkeys_j : ∀ e ∈ sort_j, e.key = ⌊dscale * (nshift + dot3 (pos_j e.idx) n)⌋)
    (hsort_i : sort_i.Pairwise (fun a b => b.key ≤ a.key))
    (hsort_j : sort_j.Pairwise (fun a b => b.key ≤ a.key))
    (hperm_i : (sort_i.map SortEntry.idx).Perm (List.range counti))
    (hperm_j : (sort_j.map SortEntry.idx).Perm (List.range countj))
    (hsym : ∀ i k, eeS i k = eeS k i) :
    1 / 2 * runner_doself_cuda_epot counti pos_i (cutoff ^ 2) eeS =
      (∑ i in Finset.range counti, ∑ k in Finset.range counti,
        (if i < k ∧ norm2 (sub3 (pos_i i) (pos_i k)) < cutoff ^ 2 then eeS i k else 0)) ∧
    1 / 2 * runner_dopair_left_cuda_epot pos_i pos_j sh (cutoff ^ 2)
        ⌊2 + dscale * cutoff⌋ ⌊dscale * dot3 sh n⌋ sort_i sort_j eeX +
      1 / 2 * runner_dopair_right_cuda_epot pos_j pos_i sh (cutoff ^ 2)
        ⌊2 + dscale * cutoff⌋ ⌊dscale * dot3 sh n⌋ sort_j sort_i (fun a b => eeX b a) =
      ∑ i in Finset.range counti, ∑ j in Finset.range countj,
        (if norm2 (sub3 (sub3 (pos_i i) sh) (pos_j j)) < cutoff ^ 2 then eeX i j else 0) := by
  constructor
  · have hmerge : ∀ i k : ℕ,
        (if i ≠ k ∧ norm2 (sub3 (pos_i i) (pos_i k)) < cutoff ^ 2 then eeS i k else 0) =
        (if i ≠ k then
          (if norm2 (sub3 (pos_i i) (pos_i k)) < cutoff ^ 2 then eeS i k else 0) else 0) := by
      intro i k
      by_cases h1 : i ≠ k <;> by_cases h2 : norm2 (sub3 (pos_i i) (pos_i k)) < cutoff ^ 2 <;>
        simp [h1, h2]
    have hmerge2 : ∀ i k : ℕ,
        (if i < k ∧ norm2 (sub3 (pos_i i) (pos_i k)) < cutoff ^ 2 then eeS i k else 0) =
        (if i < k then
          (if norm2 (sub3 (pos_i i) (pos_i k)) < cutoff ^ 2 then eeS i k else 0) else 0) := by
      intro i k
      by_cases h1 : i < k <;> by_cases h2 : norm2 (sub3 (pos_i i) (pos_i k)) < cutoff ^ 2 <;>
        simp [h1, h2]
    have hsymg : ∀ i k : ℕ,
        (if norm2 (sub3 (pos_i i) (pos_i k)) < cutoff ^ 2 then eeS i k else 0) =
        (if norm2 (sub3 (pos_i k) (pos_i i)) < cutoff ^ 2 then eeS k i else 0) := by
      intro i k
      rw [norm2_sub3_comm, hsym]
    unfold runner_doself_cuda_epot
    simp_rw [hmerge, hmerge2]
    rw [sum_off_diag_eq_twice counti _ (fun i k => hsymg i k)]
    ring
  · have hL : runner_dopair_left_cuda_epot pos_i pos_j sh (cutoff ^ 2)
        ⌊2 + dscale * cutoff⌋ ⌊dscale * dot3 sh n⌋ sort_i sort_j eeX =
        ∑ i in Finset.range counti, ∑ j in Finset.range countj,
          (if norm2 (sub3 (sub3 (pos_i i) sh) (pos_j j)) < cutoff ^ 2 then eeX i j else 0) := by
      unfold runner_dopair_left_cuda_epot
      have hwalk : ∀ ei ∈ sort_i,
          ((dopair_left_walk ⌊2 + dscale * cutoff⌋ ⌊dscale * dot3 sh n⌋ ei.key sort_j).map
            (fun ej =>
              if norm2 (sub3 (sub3 (pos_i ei.idx) sh) (pos_j ej.idx)) < cutoff ^ 2
              then eeX ei.idx ej.idx else 0)).sum =
          (sort_j.map (fun ej =>
              if norm2 (sub3 (sub3 (pos_i ei.idx) sh) (pos_j ej.idx)) < cutoff ^ 2
              then eeX ei.idx ej.idx else 0)).sum := by
        intro ei hei
        unfold dopair_left_walk
        rw [takeWhile_sum_eq _ (fun a b : SortEntry => a.key ≤ b.key) sort_j.reverse
          (List.pairwise_reverse.mpr hsort_j)
          (fun a b hab hpb => by
            simp only [decide_eq_true_eq] at hpb ⊢
            omega)
          _
          (fun e he hpe => by
            simp only [decide_eq_false_iff_not] at hpe
            rw [hkeys_j e (List.mem_reverse.mp he), hkeys_i ei hei] at hpe
            exact if_neg (not_lt.mpr
              (skip_left_far dscale cutoff nshift n sh (pos_i ei.idx) (pos_j e.idx)
                hds hn hc hpe)))]
        rw [List.map_reverse, List.sum_reverse]
      rw [List.map_congr_left hwalk]
      rw [sum_map_idx sort_i counti hperm_i (fun i =>
        (sort_j.map (fun ej =>
          if norm2 (sub3 (sub3 (pos_i i) sh) (pos_j ej.idx)) < cutoff ^ 2
          then eeX i ej.idx else 0)).sum)]
      refine Finset.sum_congr rfl (fun i _ => ?_)
      exact sum_map_idx sort_j countj hperm_j (fun j =>
        if norm2 (sub3 (sub3 (pos_i i) sh) (pos_j j)) < cutoff ^ 2 then eeX i j else 0)
    have hR : runner_dopair_right_cuda_epot pos_j pos_i sh (cutoff ^ 2)
        ⌊2 + dscale * cutoff⌋ ⌊dscale * dot3 sh n⌋ sort_j sort_i (fun a b => eeX b a) =
        ∑ i in Finset.range counti, ∑ j in Finset.range countj,
          (if norm2 (sub3 (sub3 (pos_i i) sh) (pos_j j)) < cutoff ^ 2 then eeX i j else 0) := by
      unfold runner_dopair_right_cuda_epot
      have hwalk : ∀ ej ∈ sort_j,
          ((dopair_right_walk ⌊2 + dscale * cutoff⌋ ⌊dscale * dot3 sh n⌋ ej.key sort_i).map
            (fun ei =>
              if norm2 (sub3 (add3 (pos_j ej.idx) sh) (pos_i ei.idx)) < cutoff ^ 2
              then eeX ei.idx ej.idx else 0)).sum =
          (sort_i.map (fun ei =>
              if norm2 (sub3 (add3 (pos_j ej.idx) sh) (pos_i ei.idx)) < cutoff ^ 2
              then eeX ei.idx ej.idx else 0)).sum := by
        intro ej hej
        unfold dopair_right_walk
        rw [takeWhile_sum_eq _ (fun a b : SortEntry => b.key ≤ a.key) sort_i
          hsort_i
          (fun a b hab hpb => by
            simp only [decide_eq_true_eq] at hpb ⊢
            omega)
          _
          (fun e he hpe => by
            simp only [decide_eq_false_iff_not] at hpe
            rw [hkeys_i e he, hkeys_j ej hej] at hpe
            exact if_neg (not_lt.mpr
              (skip_right_far dscale cutoff nshift n sh (pos_j ej.idx) (pos_i e.idx)
                hds hn hc hpe)))]
      rw [List.map_congr_left hwalk]
      rw [sum_map_idx sort_j countj hperm_j (fun j =>
        (sort_i.map (fun ei =>
          if norm2 (sub3 (add3 (pos_j j) sh) (pos_i ei.idx)) < cutoff ^ 2
          then eeX ei.idx j else 0)).sum)]
      refine Eq.trans (Finset.sum_congr rfl (fun j _ =>
        sum_map_idx sort_i counti hperm_i (fun i =>
          if norm2 (sub3 (add3 (pos_j j) sh) (pos_i i)) < cutoff ^ 2
          then eeX i j else 0))) ?_
      rw [Finset.sum_comm]
      refine Finset.sum_congr rfl (fun i _ => Finset.sum_congr rfl (fun j _ => ?_))
      rw [norm2_right_eq_left]
    rw [hL, hR]
    ring

/-- C10 (witness): two particles in the first cell (slots 0, 1), one in the
second, all within cutoff 1; the halved self energy counts the one in-cell
pair once (`3`) and the halved left/right pair energies count the two
cross-cell pairs once each (`7 + 7 = 14`). -/
theorem tf_c10_energy_counted_once_witness :
    1 / 2 * runner_doself_cuda_epot 2
        (fun i => if i = 0 then (⟨0, 0, 0⟩ : Float3) else ⟨1 / 2, 0, 0⟩) ((1 : ℚ) ^ 2)
        (fun _ _ => 3) = 3 ∧
    1 / 2 * runner_dopair_left_cuda_epot
        (fun i => if i = 0 then (⟨0, 0, 0⟩ : Float3) else ⟨1 / 2, 0, 0⟩)
        (fun _ => ⟨1 / 2, 0, 0⟩) ⟨0, 0, 0⟩ ((1 : ℚ) ^ 2)
        ⌊(2 : ℚ) + 1 * 1⌋ ⌊(1 : ℚ) * dot3 ⟨0, 0, 0⟩ ⟨1, 0, 0⟩⌋
        [⟨0, 0⟩, ⟨1, 0⟩] [⟨0, 0⟩] (fun _ _ => 7) +
      1 / 2 * runner_dopair_right_cuda_epot
        (fun _ => ⟨1 / 2, 0, 0⟩)
        (fun i => if i = 0 then (⟨0, 0, 0⟩ : Float3) else ⟨1 / 2, 0, 0⟩)
        ⟨0, 0, 0⟩ ((1 : ℚ) ^ 2)
        ⌊(2 : ℚ) + 1 * 1⌋ ⌊(1 : ℚ) * dot3 ⟨0, 0, 0⟩ ⟨1, 0, 0⟩⌋
        [⟨0, 0⟩] [⟨0, 0⟩, ⟨1, 0⟩] (fun a b => 7) = 14 := by
  have h := tf_c10_energy_counted_once 1 1 0 ⟨1, 0, 0⟩ ⟨0, 0, 0⟩ 2 1
    (fun i => if i = 0 then (⟨0, 0, 0⟩ : Float3) else ⟨1 / 2, 0, 0⟩)
    (fun _ => ⟨1 / 2, 0, 0⟩)
    [⟨0, 0⟩, ⟨1, 0⟩] [⟨0, 0⟩] (fun _ _ => 3) (fun _ _ => 7)
    (by norm_num) (by norm_num [norm2, dot3]) (by norm_num)
    (by intro e he; fin_cases he <;> norm_num [dot3])
    (by intro e he; fin_cases he <;> norm_num [dot3])
    (by decide) (by decide) (by decide) (by decide)
    (fun _ _ => rfl)
  constructor
  · rw [show (1 : ℚ) * 1 = 1 * (1 : ℚ) from rfl] at h
    rw [h.1]
    simp only [Finset.sum_range_succ, Finset.sum_range_zero]
    norm_num [norm2, dot3, sub3]
  · rw [h.2]
    simp only [Finset.sum_range_succ, Finset.sum_range_zero]
    norm_num [norm2, dot3, sub3, add3]

/-!
## The device sort `cuda_sort_descending` (tfRunner_cuda.cu, lines 317-364)

The kernel sorts `count` packed words by their low 16 bits, in descending
order, with a normalized bitonic network.  Its phases are data-parallel:
within one phase every index belongs to at most one compare-exchange pair
(`ind = i + (i & ~(w-1))`, `jnd` its partner, both functions of `i`; the map
`i ↦ (ind, jnd)` hits each index at most once), each thread reads only its
own pair's two cells and writes them back, and `__syncthreads()` separates
phases.  A parallel phase with disjoint reads/writes per pair is therefore
embedded denotationally: the new array value at `p` is a function of the
old values at `p` and at `p`'s partner.  The partner arithmetic uses that
the loop widths are the powers of two `k = 1, 2, 4, ...` (`k *= 2`) and
`j = k/2, k/4, ..., 1` (`j /= 2`), for which the bit operations satisfy
`i & ~(w-1) = w * (i / w)` and `i & (w-1) = i % w`.  A pair is
compare-exchanged only when `jnd < count` (out-of-range operands are read
as `0` and never written, and `ind < jnd` always).
-/

/-- The sort key of a packed word: `sort & 0xffff`. -/
def cuda_key (v : ℕ) : ℕ := v % 65536

/-- One "first step" (flip) phase of `cuda_sort_descending` at width `k`:
index `p` at offset `off = p % 2k` inside its `2k`-block is paired with the
mirrored offset `2k - 1 - off`; the pair `(ind, jnd)` with `ind` the lower
index swaps (larger key to `ind`) only when `jnd < count`. -/
def runner_sort_flip (count k : ℕ) (u : ℕ → ℕ) : ℕ → ℕ := fun p =>
  let off := p % (2 * k)
  let q := (p - off) + (2 * k - 1 - off)
  if off < k then
    if q < count ∧ cuda_key (u p) < cuda_key (u q) then u q else u p
  else
    if p < count ∧ cuda_key (u q) < cuda_key (u p) then u q else u p

/-- One "second step" (shift) phase at width `j`: index `p` at offset
`off = p % 2j` is paired with `p + j` (when `off < j`) or `p - j`. -/
def runner_sort_shift (count j : ℕ) (u : ℕ → ℕ) : ℕ → ℕ := fun p =>
  let off := p % (2 * j)
  if off < j then
    if p + j < count ∧ cuda_key (u p) < cuda_key (u (p + j)) then u (p + j) else u p
  else
    if p < count ∧ cuda_key (u (p - j)) < cuda_key (u p) then u (p - j) else u p

/-- One iteration of the outer `for(k = 1; k < count; k *= 2)` loop with
`k = 2^s`: the flip phase followed by the cascade `j = k/2, ..., 1`. -/
def runner_sort_stage (count s : ℕ) (u : ℕ → ℕ) : ℕ → ℕ :=
  ((List.range s).reverse.map (fun t => 2 ^ t)).foldl
    (fun v j => runner_sort_shift count j v) (runner_sort_flip count (2 ^ s) u)

/-- `cuda_sort_descending(a, count)`: the stages `k = 2^0, 2^1, ...` run
while `k < count`, i.e. for `s < Nat.size (count - 1)`. -/
def cuda_sort_descending (count : ℕ) (u : ℕ → ℕ) : ℕ → ℕ :=
  (List.range (Nat.size (count - 1))).foldl
    (fun v s => runner_sort_stage count s v) u

/-- An array transformer realizes a permutation of the first `count` slots:
its output is the input read through a permutation of `ℕ` fixing
`[count, ∞)`. -/
def PermRealizes (count : ℕ) (f : (ℕ → ℕ) → ℕ → ℕ) : Prop :=
  ∀ u, ∃ σ : Equiv.Perm ℕ, (∀ p, f u p = u (σ p)) ∧ ∀ p, count ≤ p → σ p = p

/-- The swap partner selected by one flip phase. -/
def tau_flip (count k : ℕ) (u : ℕ → ℕ) (p : ℕ) : ℕ :=
  let off := p % (2 * k)
  let q := (p - off) + (2 * k - 1 - off)
  if off < k then
    if q < count ∧ cuda_key (u p) < cuda_key (u q) then q else p
  else
    if p < count ∧ cuda_key (u q) < cuda_key (u p) then q else p

/-- The swap partner selected by one shift phase. -/
def tau_shift (count j : ℕ) (u : ℕ → ℕ) (p : ℕ) : ℕ :=
  let off := p % (2 * j)
  if off < j then
    if p + j < count ∧ cuda_key (u p) < cuda_key (u (p + j)) then p + j else p
  else
    if p < count ∧ cuda_key (u (p - j)) < cuda_key (u p) then p - j else p

/-- Offsets with a block-aligned base reduce modulo the block size. -/
lemma mod_of_base (kk B x : ℕ) (hB : B % kk = 0) (hx : x < kk) : (B + x) % kk = x := by
  rw [Nat.add_mod, hB, Nat.zero_add, Nat.mod_mod_of_dvd x (dvd_refl kk),
    Nat.mod_eq_of_lt hx]

/-- Every index decomposes over an aligned base and an in-block offset. -/
lemma block_decomp (kk p : ℕ) (h : 0 < kk) :
    ∃ B off, p = B + off ∧ off < kk ∧ B % kk = 0 := by
  refine ⟨kk * (p / kk), p % kk, ?_, Nat.mod_lt p h, Nat.mul_mod_right kk _⟩
  have := Nat.div_add_mod p kk
  omega

/-- `tau_flip` written over an aligned base and offset. -/
lemma tau_flip_spec (count k : ℕ) (u : ℕ → ℕ) (B off : ℕ)
    (hB : B % (2 * k) = 0) (hoff : off < 2 * k) :
    tau_flip count k u (B + off) =
      if off < k then
        (if B + (2 * k - 1 - off) < count ∧
            cuda_key (u (B + off)) < cuda_key (u (B + (2 * k - 1 - off)))
         then B + (2 * k - 1 - off) else B + off)
      else
        (if B + off < count ∧
            cuda_key (u (B + (2 * k - 1 - off))) < cuda_key (u (B + off))
         then B + (2 * k - 1 - off) else B + off) := by
  simp only [tau_flip]
  rw [mod_of_base _ _ _ hB hoff]
  rw [show B + off - off = B by omega]

/-- `tau_shift` written over an aligned base and offset. -/
lemma tau_shift_spec (count j : ℕ) (u : ℕ → ℕ) (B off : ℕ)
    (hB : B % (2 * j) = 0) (hoff : off < 2 * j) :
    tau_shift count j u (B + off) =
      if off < j then
        (if B + (off + j) < count ∧
            cuda_key (u (B + off)) < cuda_key (u (B + (off + j)))
         then B + (off + j) else B + off)
      else
        (if B + off < count ∧
            cuda_key (u (B + (off - j))) < cuda_key (u (B + off))
         then B + (off - j) else B + off) := by
  simp only [tau_shift]
  rw [mod_of_base _ _ _ hB hoff]
  by_cases h1 : off < j
  · rw [if_pos h1, if_pos h1, Nat.add_assoc]
  · rw [if_neg h1, if_neg h1, show B + off - j = B + (off - j) by omega]

/-- `tau_flip` is an involution. -/
lemma tau_flip_involutive (count k : ℕ) (u : ℕ → ℕ) (hk : 0 < k) :
    Function.Involutive (tau_flip count k u) := by
  intro p
  obtain ⟨B, off, rfl, hoff, hB⟩ := block_decomp (2 * k) p (by omega)
  rw [tau_flip_spec count k u B off hB hoff]
  by_cases h1 : off < k
  · rw [if_pos h1]
    by_cases hc : B + (2 * k - 1 - off) < count ∧
        cuda_key (u (B + off)) < cuda_key (u (B + (2 * k - 1 - off)))
    · rw [if_pos hc, tau_flip_spec count k u B (2 * k - 1 - off) hB (by omega),
        if_neg (by omega), show 2 * k - 1 - (2 * k - 1 - off) = off by omega,
        if_pos ⟨hc.1, hc.2⟩]
    · rw [if_neg hc, tau_flip_spec count k u B off hB hoff, if_pos h1, if_neg hc]
  · rw [if_neg h1]
    by_cases hc : B + off < count ∧
        cuda_key (u (B + (2 * k - 1 - off))) < cuda_key (u (B + off))
    · rw [if_pos hc, tau_flip_spec count k u B (2 * k - 1 - off) hB (by omega),
        if_pos (by omega), show 2 * k - 1 - (2 * k - 1 - off) = off by omega,
        if_pos ⟨hc.1, hc.2⟩]
    · rw [if_neg hc, tau_flip_spec count k u B off hB hoff, if_neg h1, if_neg hc]

/-- `tau_shift` is an involution. -/
lemma tau_shift_involutive (count j : ℕ) (u : ℕ → ℕ) (hj : 0 < j) :
    Function.Involutive (tau_shift count j u) := by
  intro p
  obtain ⟨B, off, rfl, hoff, hB⟩ := block_decomp (2 * j) p (by omega)
  rw [tau_shift_spec count j u B off hB hoff]
  by_cases h1 : off < j
  · rw [if_pos h1]
    by_cases hc : B + (off + j) < count ∧
        cuda_key (u (B + off)) < cuda_key (u (B + (off + j)))
    · rw [if_pos hc, tau_shift_spec count j u B (off + j) hB (by omega),
        if_neg (by omega), show off + j - j = off by omega,
        if_pos ⟨hc.1, hc.2⟩]
    · rw [if_neg hc, tau_shift_spec count j u B off hB hoff, if_pos h1, if_neg hc]
  · rw [if_neg h1]
    by_cases hc : B + off < count ∧
        cuda_key (u (B + (off - j))) < cuda_key (u (B + off))
    · rw [if_pos hc, tau_shift_spec count j u B (off - j) hB (by omega),
        if_pos (by omega), show off - j + j = off by omega,
        if_pos ⟨hc.1, hc.2⟩]
    · rw [if_neg hc, tau_shift_spec count j u B off hB hoff, if_neg h1, if_neg hc]

/-- One flip phase reads the input through `tau_flip`. -/
lemma runner_sort_flip_eq_tau (count k : ℕ) (u : ℕ → ℕ) :
    ∀ p, runner_sort_flip count k u p = u (tau_flip count k u p) := by
  intro p
  simp only [runner_sort_flip, tau_flip]
  by_cases hoff : p % (2 * k) < k
  · rw [if_pos hoff, if_pos hoff]
    split <;> rfl
  · rw [if_neg hoff, if_neg hoff]
    split <;> rfl

/-- One shift phase reads the input through `tau_shift`. -/
lemma runner_sort_shift_eq_tau (count j : ℕ) (u : ℕ → ℕ) :
    ∀ p, runner_sort_shift count j u p = u (tau_shift count j u p) := by
  intro p
  simp only [runner_sort_shift, tau_shift]
  by_cases hoff : p % (2 * j) < j
  · rw [if_pos hoff, if_pos hoff]
    split <;> rfl
  · rw [if_neg hoff, if_neg hoff]
    split <;> rfl

/-- `tau_flip` fixes all slots at or beyond `count`. -/
lemma tau_flip_fixes (count k : ℕ) (u : ℕ → ℕ) (hk : 0 < k) :
    ∀ p, count ≤ p → tau_flip count k u p = p := by
  intro p hp
  obtain ⟨B, off, rfl, hoff, hB⟩ := block_decomp (2 * k) p (by omega)
  rw [tau_flip_spec count k u B off hB hoff]
  by_cases h1 : off < k
  · rw [if_pos h1, if_neg (by omega)]
  · rw [if_neg h1, if_neg (by omega)]

/-- `tau_shift` fixes all slots at or beyond `count`. -/
lemma tau_shift_fixes (count j : ℕ) (u : ℕ → ℕ) :
    ∀ p, count ≤ p → tau_shift count j u p = p := by
  intro p hp
  simp only [tau_shift]
  by_cases hoff : p % (2 * j) < j
  · rw [if_pos hoff, if_neg (by omega)]
  · rw [if_neg hoff, if_neg (by omega)]

/-- The flip phase realizes a permutation of the first `count` slots. -/
lemma flip_permRealizes (count k : ℕ) (hk : 0 < k) :
    PermRealizes count (runner_sort_flip count k) := by
  intro u
  exact ⟨(tau_flip_involutive count k u hk).toPerm,
    runner_sort_flip_eq_tau count k u, tau_flip_fixes count k u hk⟩

/-- The shift phase realizes a permutation of the first `count` slots. -/
lemma shift_permRealizes (count j : ℕ) (hj : 0 < j) :
    PermRealizes count (runner_sort_shift count j) := by
  intro u
  exact ⟨(tau_shift_involutive count j u hj).toPerm,
    runner_sort_shift_eq_tau count j u, tau_shift_fixes count j u⟩

/-- Folding permutation-realizing phases realizes a permutation. -/
lemma foldl_permRealizes {β : Type} (count : ℕ) (step : (ℕ → ℕ) → β → ℕ → ℕ)
    (l : List β) (hstep : ∀ b ∈ l, PermRealizes count (fun u => step u b)) :
    PermRealizes count (fun u => l.foldl step u) := by
  induction l generalizing step with
  | nil => exact fun u => ⟨Equiv.refl ℕ, fun p => rfl, fun p _ => rfl⟩
  | cons b rest ih =>
    intro u
    obtain ⟨σ1, hσ1, hfix1⟩ := hstep b (List.mem_cons_self b rest) u
    obtain ⟨σ2, hσ2, hfix2⟩ :=
      ih step (fun x hx => hstep x (List.mem_cons_of_mem b hx)) (step u b)
    refine ⟨σ2.trans σ1, ?_, ?_⟩
    · intro p
      simp only [List.foldl_cons]
      calc List.foldl step (step u b) rest p = (step u b) (σ2 p) := hσ2 p
        _ = u (σ1 (σ2 p)) := hσ1 (σ2 p)
        _ = u ((σ2.trans σ1) p) := rfl
    · intro p hp
      simp only [Equiv.trans_apply]
      rw [hfix2 p hp, hfix1 p hp]

/-- The complete device sort realizes a permutation of the first `count`
slots. -/
lemma cuda_sort_descending_permRealizes (count : ℕ) :
    PermRealizes count (cuda_sort_descending count) := by
  have hstage : ∀ s, PermRealizes count (runner_sort_stage count s) := by
    intro s
    have hcasc : PermRealizes count
        (fun u => ((List.range s).reverse.map (fun t => 2 ^ t)).foldl
          (fun v j => runner_sort_shift count j v) u) := by
      apply foldl_permRealizes count (fun v j => runner_sort_shift count j v)
      intro j hj
      rcases List.mem_map.mp hj with ⟨t, _, ht⟩
      exact ht ▸ shift_permRealizes count (2 ^ t) (Nat.pos_pow_of_pos t (by omega))
    intro u
    obtain ⟨σ1, hσ1, hfix1⟩ := flip_permRealizes count (2 ^ s)
      (Nat.pos_pow_of_pos s (by omega)) u
    obtain ⟨σ2, hσ2, hfix2⟩ := hcasc (runner_sort_flip count (2 ^ s) u)
    refine ⟨σ2.trans σ1, ?_, ?_⟩
    · intro p
      unfold runner_sort_stage
      calc ((List.range s).reverse.map (fun t => 2 ^ t)).foldl
            (fun v j => runner_sort_shift count j v)
            (runner_sort_flip count (2 ^ s) u) p
          = (runner_sort_flip count (2 ^ s) u) (σ2 p) := hσ2 p
        _ = u (σ1 (σ2 p)) := hσ1 (σ2 p)
        _ = u ((σ2.trans σ1) p) := rfl
    · intro p hp
      simp only [Equiv.trans_apply]
      rw [hfix2 p hp, hfix1 p hp]
  exact foldl_permRealizes count (fun v s => runner_sort_stage count s v) _
    (fun s _ => hstage s)

/-- A permutation fixing `[count, ∞)` permutes the mapped range. -/
lemma permRealizes_range_perm (count : ℕ) (f : (ℕ → ℕ) → ℕ → ℕ)
    (hf : PermRealizes count f) (u : ℕ → ℕ) :
    ((List.range count).map (f u)).Perm ((List.range count).map u) := by
  obtain ⟨σ, hσ, hfix⟩ := hf u
  have hmaps : ∀ p, p < count → σ p < count := by
    intro p hp
    by_contra hge
    have h1 : σ (σ p) = σ p := hfix (σ p) (not_lt.mp hge)
    have h2 : σ p = p := σ.injective h1
    omega
  have hmaps2 : ∀ p, p < count → σ.symm p < count := by
    intro p hp
    by_contra hge
    have h1 : σ (σ.symm p) = σ.symm p := hfix (σ.symm p) (not_lt.mp hge)
    rw [Equiv.apply_symm_apply] at h1
    omega
  have h1 : (List.range count).map (f u) = ((List.range count).map σ).map u := by
    rw [List.map_map]
    exact List.map_congr_left (fun p _ => hσ p)
  rw [h1]
  refine List.Perm.map u ?_
  apply List.perm_of_nodup_nodup_toFinset_eq
  · exact (List.nodup_range count).map σ.injective
  · exact List.nodup_range count
  · ext x
    simp only [List.mem_toFinset, List.mem_map, List.mem_range]
    constructor
    · rintro ⟨y, hy, rfl⟩
      exact hmaps y hy
    · intro hx
      exact ⟨σ.symm x, hmaps2 x hx, σ.apply_symm_apply x⟩

/-!
The sortedness proof proceeds in three reductions.  First, the value-level
phases commute with taking keys, so the key sequence evolves under the same
network with plain comparisons.  Second, the `count`-guarded plain network
on a key sequence equals the unguarded network on the sequence padded with
zeros beyond `count` (out-of-range reads are `0`, and a zero never wins a
descending exchange).  Third, the unguarded network is a normalized bitonic
sorting network, proved to sort by the 0-1 principle.
-/

/-- The flip phase on plain values (key already applied). -/
def flipP (count k : ℕ) (v : ℕ → ℕ) : ℕ → ℕ := fun p =>
  let off := p % (2 * k)
  let q := (p - off) + (2 * k - 1 - off)
  if off < k then
    if q < count ∧ v p < v q then v q else v p
  else
    if p < count ∧ v q < v p then v q else v p

/-- The shift phase on plain values. -/
def shiftP (count j : ℕ) (v : ℕ → ℕ) : ℕ → ℕ := fun p =>
  let off := p % (2 * j)
  if off < j then
    if p + j < count ∧ v p < v (p + j) then v (p + j) else v p
  else
    if p < count ∧ v (p - j) < v p then v (p - j) else v p

/-- The unguarded flip phase (every pair active). -/
def flipU (k : ℕ) (v : ℕ → ℕ) : ℕ → ℕ := fun p =>
  let off := p % (2 * k)
  let q := (p - off) + (2 * k - 1 - off)
  if off < k then
    if v p < v q then v q else v p
  else
    if v q < v p then v q else v p

/-- The unguarded shift phase. -/
def shiftU (j : ℕ) (v : ℕ → ℕ) : ℕ → ℕ := fun p =>
  let off := p % (2 * j)
  if off < j then
    if v p < v (p + j) then v (p + j) else v p
  else
    if v (p - j) < v p then v (p - j) else v p

/-- Zero-padding beyond `count`. -/
def padZ (count : ℕ) (v : ℕ → ℕ) : ℕ → ℕ := fun p => if p < count then v p else 0

/-- The guarded plain stage and network, mirroring `runner_sort_stage` and
`cuda_sort_descending` on key sequences. -/
def stageP (count s : ℕ) (v : ℕ → ℕ) : ℕ → ℕ :=
  ((List.range s).reverse.map (fun t => 2 ^ t)).foldl
    (fun w j => shiftP count j w) (flipP count (2 ^ s) v)

/-- The unguarded stage. -/
def stageU (s : ℕ) (v : ℕ → ℕ) : ℕ → ℕ :=
  ((List.range s).reverse.map (fun t => 2 ^ t)).foldl
    (fun w j => shiftU j w) (flipU (2 ^ s) v)

/-- The guarded plain network. -/
def netP (count : ℕ) (v : ℕ → ℕ) : ℕ → ℕ :=
  (List.range (Nat.size (count - 1))).foldl (fun w s => stageP count s w) v

/-- The unguarded network. -/
def netU (m : ℕ) (v : ℕ → ℕ) : ℕ → ℕ :=
  (List.range m).foldl (fun w s => stageU s w) v

/-- Keys of a flip phase are the plain flip phase of the keys. -/
lemma key_flip (count k : ℕ) (u : ℕ → ℕ) :
    (fun p => cuda_key (runner_sort_flip count k u p)) =
      flipP count k (fun p => cuda_key (u p)) := by
  funext p
  simp only [runner_sort_flip, flipP]
  split
  · split <;> rfl
  · split <;> rfl

/-- Keys of a shift phase are the plain shift phase of the keys. -/
lemma key_shift (count j : ℕ) (u : ℕ → ℕ) :
    (fun p => cuda_key (runner_sort_shift count j u p)) =
      shiftP count j (fun p => cuda_key (u p)) := by
  funext p
  simp only [runner_sort_shift, shiftP]
  split
  · split <;> rfl
  · split <;> rfl

/-- Keys of the whole sort are the plain network of the keys. -/
lemma key_net (count : ℕ) (u : ℕ → ℕ) :
    (fun p => cuda_key (cuda_sort_descending count u p)) =
      netP count (fun p => cuda_key (u p)) := by
  unfold cuda_sort_descending netP
  generalize List.range (Nat.size (count - 1)) = stages
  induction stages generalizing u with
  | nil => rfl
  | cons s rest ih =>
    simp only [List.foldl_cons]
    have hstage : (fun p => cuda_key (runner_sort_stage count s u p)) =
        stageP count s (fun p => cuda_key (u p)) := by
      unfold runner_sort_stage stageP
      rw [← key_flip count (2 ^ s) u]
      generalize (List.range s).reverse.map (fun t => 2 ^ t) = widths
      generalize runner_sort_flip count (2 ^ s) u = u1
      induction widths generalizing u1 with
      | nil => rfl
      | cons j ws ihw =>
        simp only [List.foldl_cons]
        rw [← key_shift count j u1]
        exact ihw (runner_sort_shift count j u1)
    rw [← hstage]
    exact ih (runner_sort_stage count s u)

/-- Padded guarded flip equals unguarded flip of the padded sequence. -/
lemma pad_flip (count k : ℕ) (v : ℕ → ℕ) (hk : 0 < k) :
    padZ count (flipP count k v) = flipU k (padZ count v) := by
  funext p
  obtain ⟨B, off, rfl, hoff, hB⟩ := block_decomp (2 * k) p (by omega)
  have hq : B + off - off + (2 * k - 1 - off) = B + (2 * k - 1 - off) := by omega
  simp only [padZ, flipP, flipU, mod_of_base _ _ _ hB hoff, hq]
  split_ifs <;> omega

/-- Padded guarded shift equals unguarded shift of the padded sequence. -/
lemma pad_shift (count j : ℕ) (v : ℕ → ℕ) (hj : 0 < j) :
    padZ count (shiftP count j v) = shiftU j (padZ count v) := by
  funext p
  obtain ⟨B, off, rfl, hoff, hB⟩ := block_decomp (2 * j) p (by omega)
  simp only [padZ, shiftP, shiftU, mod_of_base _ _ _ hB hoff]
  split_ifs <;> omega

/-- Padded guarded network equals the unguarded network of the padding. -/
lemma pad_net (count : ℕ) (v : ℕ → ℕ) :
    padZ count (netP count v) = netU (Nat.size (count - 1)) (padZ count v) := by
  unfold netP netU
  generalize List.range (Nat.size (count - 1)) = stages
  induction stages generalizing v with
  | nil => rfl
  | cons s rest ih =>
    simp only [List.foldl_cons]
    have hstage : padZ count (stageP count s v) = stageU s (padZ count v) := by
      unfold stageP stageU
      rw [← pad_flip count (2 ^ s) v (Nat.pos_pow_of_pos s (by omega))]
      generalize hws : (List.range s).reverse.map (fun t => 2 ^ t) = widths
      have hpow : ∀ j ∈ widths, 0 < j := by
        intro j hj
        rw [← hws] at hj
        rcases List.mem_map.mp hj with ⟨t, _, ht⟩
        exact ht ▸ Nat.pos_pow_of_pos t (by omega)
      clear hws
      generalize flipP count (2 ^ s) v = v1
      induction widths generalizing v1 with
      | nil => rfl
      | cons jw ws ihw =>
        simp only [List.foldl_cons]
        rw [← pad_shift count jw v1 (hpow jw (List.mem_cons_self jw ws))]
        exact ihw (fun x hx => hpow x (List.mem_cons_of_mem jw hx)) (shiftP count jw v1)
    rw [← hstage]
    exact ih (stageP count s v)

/-- A descending compare-exchange (larger value first) commutes with a
monotone map. -/
lemma cmp_swap_max (g : ℕ → ℕ) (hg : Monotone g) (a b : ℕ) :
    (if g a < g b then g b else g a) = g (if a < b then b else a) := by
  by_cases hv : a < b
  · rw [if_pos hv]
    by_cases hgv : g a < g b
    · rw [if_pos hgv]
    · rw [if_neg hgv]
      exact le_antisymm (hg hv.le) (not_lt.mp hgv)
  · rw [if_neg hv, if_neg (fun hlt => absurd (hg (not_lt.mp hv)) (not_le.mpr hlt))]

/-- The symmetric (min-side) compare-exchange also commutes. -/
lemma cmp_swap_min (g : ℕ → ℕ) (hg : Monotone g) (a b : ℕ) :
    (if g a < g b then g a else g b) = g (if a < b then a else b) := by
  by_cases hv : a < b
  · rw [if_pos hv]
    by_cases hgv : g a < g b
    · rw [if_pos hgv]
    · rw [if_neg hgv]
      exact le_antisymm (not_lt.mp hgv) (hg hv.le)
  · rw [if_neg hv, if_neg (fun hlt => absurd (hg (not_lt.mp hv)) (not_le.mpr hlt))]

/-- The unguarded flip phase commutes with a monotone map of the values. -/
lemma mono_flipU (k : ℕ) (g : ℕ → ℕ) (hg : Monotone g) (v : ℕ → ℕ) :
    flipU k (fun p => g (v p)) = fun p => g (flipU k v p) := by
  funext p
  simp only [flipU]
  by_cases hb : p % (2 * k) < k
  · rw [if_pos hb, if_pos hb]
    exact cmp_swap_max g hg _ _
  · rw [if_neg hb, if_neg hb]
    exact cmp_swap_min g hg _ _

/-- The unguarded shift phase commutes with a monotone map of the values. -/
lemma mono_shiftU (j : ℕ) (g : ℕ → ℕ) (hg : Monotone g) (v : ℕ → ℕ) :
    shiftU j (fun p => g (v p)) = fun p => g (shiftU j v p) := by
  funext p
  simp only [shiftU]
  by_cases hb : p % (2 * j) < j
  · rw [if_pos hb, if_pos hb]
    exact cmp_swap_max g hg _ _
  · rw [if_neg hb, if_neg hb]
    exact cmp_swap_min g hg _ _

/-- The unguarded network commutes with a monotone map of the values. -/
lemma mono_netU (m : ℕ) (g : ℕ → ℕ) (hg : Monotone g) (v : ℕ → ℕ) :
    netU m (fun p => g (v p)) = fun p => g (netU m v p) := by
  unfold netU
  generalize List.range m = stages
  induction stages generalizing v with
  | nil => rfl
  | cons s rest ih =>
    simp only [List.foldl_cons]
    have hstage : stageU s (fun p => g (v p)) = fun p => g (stageU s v p) := by
      unfold stageU
      rw [mono_flipU (2 ^ s) g hg v]
      generalize flipU (2 ^ s) v = v1
      generalize (List.range s).reverse.map (fun t => 2 ^ t) = widths
      induction widths generalizing v1 with
      | nil => rfl
      | cons jw ws ihw =>
        simp only [List.foldl_cons]
        rw [mono_shiftU jw g hg v1]
        exact ihw (shiftU jw v1)
    rw [hstage]
    exact ih (stageU s v)

/-- Blockwise descending order: inside every aligned block of size `n`,
values never increase with the offset. -/
def DescBlocks (n : ℕ) (v : ℕ → ℕ) : Prop :=
  ∀ B t1 t2, B % n = 0 → t1 ≤ t2 → t2 < n → v (B + t2) ≤ v (B + t1)

/-- A descending 0-1 block of size `n` with `c` leading ones. -/
def DBlk (v : ℕ → ℕ) (B n c : ℕ) : Prop :=
  ∀ t, t < n → v (B + t) = if t < c then 1 else 0

/-- A circular 0-1 run inside a block of size `n`: `c` ones starting at
offset `lo` and wrapping around the end of the block. -/
def CircBlk (v : ℕ → ℕ) (B n lo c : ℕ) : Prop :=
  ∀ t, t < n → v (B + t) = if (lo ≤ t ∧ t < lo + c) ∨ t + n < lo + c then 1 else 0

/-- The tail of shift phases of a stage, as its own cascade. -/
def cascade (s : ℕ) (v : ℕ → ℕ) : ℕ → ℕ :=
  ((List.range s).reverse.map (fun t => 2 ^ t)).foldl (fun w j => shiftU j w) v

lemma stageU_eq_cascade (s : ℕ) (v : ℕ → ℕ) :
    stageU s v = cascade s (flipU (2 ^ s) v) := rfl

lemma cascade_succ (s : ℕ) (v : ℕ → ℕ) :
    cascade (s + 1) v = cascade s (shiftU (2 ^ s) v) := by
  show (((List.range (s + 1)).reverse.map (fun t => 2 ^ t)).foldl
    (fun w j => shiftU j w) v) = _
  rw [List.range_succ, List.reverse_append]
  rfl

/-- The unguarded shift phase at an upper (max-taking) position of an
aligned pair. -/
lemma shiftU_max (j B t : ℕ) (v : ℕ → ℕ) (hB : B % (2 * j) = 0) (ht : t < j) :
    shiftU j v (B + t) =
      if v (B + t) < v (B + t + j) then v (B + t + j) else v (B + t) := by
  have hoff : (B + t) % (2 * j) = t := mod_of_base _ _ _ hB (by omega)
  simp only [shiftU, hoff]
  rw [if_pos ht]

/-- The unguarded shift phase at a lower (min-taking) position of an
aligned pair. -/
lemma shiftU_min (j B t : ℕ) (v : ℕ → ℕ) (hB : B % (2 * j) = 0) (ht : t < j) :
    shiftU j v (B + j + t) =
      if v (B + t) < v (B + j + t) then v (B + t) else v (B + j + t) := by
  have he : B + j + t = B + (j + t) := by omega
  have hoff : (B + (j + t)) % (2 * j) = j + t := mod_of_base _ _ _ hB (by omega)
  rw [he]
  simp only [shiftU, hoff]
  rw [if_neg (by omega)]
  have h2 : B + (j + t) - j = B + t := by omega
  rw [h2, ← he]

/-- The unguarded flip phase at a first-half (max-taking) position. -/
lemma flipU_max (k B t : ℕ) (v : ℕ → ℕ) (hB : B % (2 * k) = 0) (ht : t < k) :
    flipU k v (B + t) =
      if v (B + t) < v (B + (2 * k - 1 - t)) then v (B + (2 * k - 1 - t))
      else v (B + t) := by
  have hoff : (B + t) % (2 * k) = t := mod_of_base _ _ _ hB (by omega)
  simp only [flipU, hoff]
  rw [if_pos ht]
  have hq : B + t - t + (2 * k - 1 - t) = B + (2 * k - 1 - t) := by omega
  rw [hq]

/-- The unguarded flip phase at a second-half (min-taking) position. -/
lemma flipU_min (k B t : ℕ) (v : ℕ → ℕ) (hB : B % (2 * k) = 0) (ht : t < k) :
    flipU k v (B + k + t) =
      if v (B + (k - 1 - t)) < v (B + k + t) then v (B + (k - 1 - t))
      else v (B + k + t) := by
  have he : B + k + t = B + (k + t) := by omega
  have hoff : (B + (k + t)) % (2 * k) = k + t := mod_of_base _ _ _ hB (by omega)
  rw [he]
  simp only [flipU, hoff]
  rw [if_neg (by omega)]
  have hq : B + (k + t) - (k + t) + (2 * k - 1 - (k + t)) = B + (k - 1 - t) := by
    omega
  rw [hq, ← he]

/-- Half-cleaner, max half: a circular run of `c` ones on a `2*h` block
leaves a circular run of `min c h` ones in the upper half. -/
lemma half_cleaner_max (h B lo c : ℕ) (v : ℕ → ℕ) (hB : B % (2 * h) = 0)
    (hlo : lo ≤ 2 * h) (hc : c ≤ 2 * h) (hv : CircBlk v B (2 * h) lo c) :
    CircBlk (shiftU h v) B h (if lo < h then lo else lo - h) (min c h) := by
  intro t ht
  rw [shiftU_max h B t v hB ht, hv t (by omega)]
  have he : B + t + h = B + (t + h) := by omega
  rw [he, hv (t + h) (by omega)]
  split_ifs <;> omega

/-- Half-cleaner, min half: the remaining `c - h` ones form a circular run
in the lower half. -/
lemma half_cleaner_min (h B lo c : ℕ) (v : ℕ → ℕ) (hB : B % (2 * h) = 0)
    (hlo : lo ≤ 2 * h) (hc : c ≤ 2 * h) (hv : CircBlk v B (2 * h) lo c) :
    CircBlk (shiftU h v) (B + h) h (if lo < h then lo else lo - h) (c - h) := by
  intro t ht
  rw [shiftU_min h B t v hB ht, hv t (by omega)]
  have he : B + h + t = B + (h + t) := by omega
  rw [he, hv (h + t) (by omega)]
  split_ifs <;> omega

/-- Flip over two descending halves, max half: the result is a circular
run of `min (a+b) k` ones starting at `k - b`. -/
lemma flip_block_max (k B a b : ℕ) (v : ℕ → ℕ) (hB : B % (2 * k) = 0)
    (ha : a ≤ k) (hb : b ≤ k)
    (hva : DBlk v B k a) (hvb : DBlk v (B + k) k b) :
    CircBlk (flipU k v) B k (k - b) (min (a + b) k) := by
  intro t ht
  rw [flipU_max k B t v hB ht, hva t ht]
  have he : B + (2 * k - 1 - t) = B + k + (k - 1 - t) := by omega
  rw [he, hvb (k - 1 - t) (by omega)]
  split_ifs <;> omega

/-- Flip over two descending halves, min half: the surplus `a + b - k` ones
form a circular run starting at `k - a`. -/
lemma flip_block_min (k B a b : ℕ) (v : ℕ → ℕ) (hB : B % (2 * k) = 0)
    (ha : a ≤ k) (hb : b ≤ k)
    (hva : DBlk v B k a) (hvb : DBlk v (B + k) k b) :
    CircBlk (flipU k v) (B + k) k (k - a) (a + b - k) := by
  intro t ht
  rw [flipU_min k B t v hB ht, hva (k - 1 - t) (by omega), hvb t ht]
  split_ifs <;> omega

/-- The cascade of shift phases sorts a circular 0-1 run into descending
order, preserving the number of ones. -/
lemma cascade_sorts (s : ℕ) : ∀ (v : ℕ → ℕ) (B lo c : ℕ), B % 2 ^ s = 0 →
    lo ≤ 2 ^ s → c ≤ 2 ^ s → CircBlk v B (2 ^ s) lo c →
    DBlk (cascade s v) B (2 ^ s) c := by
  induction s with
  | zero =>
    intro v B lo c hB hlo hc hv t ht
    have h1 : (2 : ℕ) ^ 0 = 1 := by norm_num
    rw [h1] at ht hlo hc
    have ht0 : t = 0 := by omega
    subst ht0
    have h0 : cascade 0 v = v := rfl
    rw [h0, hv 0 (by rw [h1]; omega)]
    split_ifs <;> omega
  | succ s ih =>
    intro v B lo c hB hlo hc hv
    have hpow : (2 : ℕ) ^ (s + 1) = 2 * 2 ^ s := by ring
    rw [hpow] at hB hlo hc hv
    have hdvd : (2 : ℕ) ^ s ∣ 2 * 2 ^ s := ⟨2, by ring⟩
    have hB1 : B % 2 ^ s = 0 := by
      rw [← Nat.mod_mod_of_dvd B hdvd, hB, Nat.zero_mod]
    have hB2 : (B + 2 ^ s) % 2 ^ s = 0 := by rw [Nat.add_mod_right, hB1]
    have hmax := half_cleaner_max (2 ^ s) B lo c v hB hlo hc hv
    have hmin := half_cleaner_min (2 ^ s) B lo c v hB hlo hc hv
    have hd1 := ih (shiftU (2 ^ s) v) B (if lo < 2 ^ s then lo else lo - 2 ^ s)
      (min c (2 ^ s)) hB1 (by split_ifs <;> omega) (by omega) hmax
    have hd2 := ih (shiftU (2 ^ s) v) (B + 2 ^ s)
      (if lo < 2 ^ s then lo else lo - 2 ^ s) (c - 2 ^ s)
      hB2 (by split_ifs <;> omega) (by omega) hmin
    rw [cascade_succ]
    intro t ht
    rw [hpow] at ht
    by_cases hcase : t < 2 ^ s
    · rw [hd1 t hcase]
      split_ifs <;> omega
    · have he : B + t = B + 2 ^ s + (t - 2 ^ s) := by omega
      rw [he, hd2 (t - 2 ^ s) (by omega)]
      split_ifs <;> omega

/-- Every aligned block of size `n` holds a 0-1 descending run. -/
def Desc01 (n : ℕ) (v : ℕ → ℕ) : Prop :=
  ∀ B, B % n = 0 → ∃ c, c ≤ n ∧ DBlk v B n c

/-- One unguarded stage merges adjacent descending blocks: descending
`2 ^ s` blocks become descending `2 ^ (s+1)` blocks. -/
lemma stageU_desc (s : ℕ) (v : ℕ → ℕ) (hv : Desc01 (2 ^ s) v) :
    Desc01 (2 ^ (s + 1)) (stageU s v) := by
  intro B hB
  have hpow : (2 : ℕ) ^ (s + 1) = 2 * 2 ^ s := by ring
  rw [hpow] at hB
  have hdvd : (2 : ℕ) ^ s ∣ 2 * 2 ^ s := ⟨2, by ring⟩
  have hB1 : B % 2 ^ s = 0 := by
    rw [← Nat.mod_mod_of_dvd B hdvd, hB, Nat.zero_mod]
  have hB2 : (B + 2 ^ s) % 2 ^ s = 0 := by rw [Nat.add_mod_right, hB1]
  obtain ⟨a, ha, hva⟩ := hv B hB1
  obtain ⟨b, hb, hvb⟩ := hv (B + 2 ^ s) hB2
  have hmax := flip_block_max (2 ^ s) B a b v hB ha hb hva hvb
  have hmin := flip_block_min (2 ^ s) B a b v hB ha hb hva hvb
  have hd1 := cascade_sorts s (flipU (2 ^ s) v) B (2 ^ s - b)
    (min (a + b) (2 ^ s)) hB1 (by omega) (by omega) hmax
  have hd2 := cascade_sorts s (flipU (2 ^ s) v) (B + 2 ^ s) (2 ^ s - a)
    (a + b - 2 ^ s) hB2 (by omega) (by omega) hmin
  refine ⟨a + b, by omega, ?_⟩
  intro t ht
  rw [hpow] at ht
  rw [stageU_eq_cascade]
  by_cases hcase : t < 2 ^ s
  · rw [hd1 t hcase]
    split_ifs <;> omega
  · have he : B + t = B + 2 ^ s + (t - 2 ^ s) := by omega
    rw [he, hd2 (t - 2 ^ s) (by omega)]
    split_ifs <;> omega

/-- The unguarded network sorts every 0-1 input into descending aligned
`2 ^ m` blocks. -/
lemma netU_desc01 (m : ℕ) (v : ℕ → ℕ) (hv : ∀ p, v p ≤ 1) :
    Desc01 (2 ^ m) (netU m v) := by
  induction m with
  | zero =>
    intro B hB
    refine ⟨v B, by have := hv B; simpa using this, ?_⟩
    intro t ht
    have h1 : (2 : ℕ) ^ 0 = 1 := by norm_num
    rw [h1] at ht
    have ht0 : t = 0 := by omega
    subst ht0
    have h0 : netU 0 v = v := rfl
    rw [h0, Nat.add_zero]
    have := hv B
    split_ifs <;> omega
  | succ m ih =>
    have hnet : netU (m + 1) v = stageU m (netU m v) := by
      unfold netU
      rw [List.range_succ, List.foldl_append]
      rfl
    rw [hnet]
    exact stageU_desc m (netU m v) ih

/-- Descending 0-1 blocks are in particular blockwise descending. -/
lemma desc01_descBlocks (n : ℕ) (v : ℕ → ℕ) (hv : Desc01 n v) :
    DescBlocks n v := by
  intro B t1 t2 hB h12 h2
  obtain ⟨c, hc, hd⟩ := hv B hB
  rw [hd t1 (by omega), hd t2 h2]
  split_ifs <;> omega

/-- 0-1 principle: the unguarded network sorts every input descending
within aligned `2 ^ m` blocks. -/
lemma netU_descBlocks (m : ℕ) (v : ℕ → ℕ) : DescBlocks (2 ^ m) (netU m v) := by
  by_contra hns
  simp only [DescBlocks] at hns
  push_neg at hns
  obtain ⟨B, t1, t2, hB, h12, h2, hlt⟩ := hns
  have hmono : Monotone (fun x => if netU m v (B + t1) < x then (1 : ℕ) else 0) := by
    intro x y hxy
    dsimp only
    split_ifs <;> omega
  have hcomm := mono_netU m (fun x => if netU m v (B + t1) < x then (1 : ℕ) else 0)
    hmono v
  simp only [] at hcomm
  have h01 : ∀ p, (if netU m v (B + t1) < v p then (1 : ℕ) else 0) ≤ 1 := by
    intro p
    split_ifs <;> omega
  have hdb := desc01_descBlocks _ _
    (netU_desc01 m (fun p => if netU m v (B + t1) < v p then (1 : ℕ) else 0) h01)
  have hle := hdb B t1 t2 hB h12 h2
  rw [hcomm] at hle
  simp only [] at hle
  split_ifs at hle <;> omega

/-- C7: for every particle count and every packed input sequence, after
`cuda_sort_descending` completes the first `count` slots of the sort array
hold a permutation of the packed input entries, arranged in descending
order of the low 16 bits (the quantized projected position). -/
theorem tf_c7 (count : ℕ) (u : ℕ → ℕ) :
    ((List.range count).map (cuda_sort_descending count u)).Perm
        ((List.range count).map u) ∧
    ∀ p q, p ≤ q → q < count →
      cuda_key (cuda_sort_descending count u q) ≤
        cuda_key (cuda_sort_descending count u p) := by
  constructor
  · exact permRealizes_range_perm count (cuda_sort_descending count)
      (cuda_sort_descending_permRealizes count) u
  · intro p q hpq hq
    have hm := netU_descBlocks (Nat.size (count - 1))
      (padZ count (fun r => cuda_key (u r)))
    have hcount : count ≤ 2 ^ Nat.size (count - 1) := by
      have := Nat.lt_size_self (count - 1)
      omega
    have hle := hm 0 p q (Nat.zero_mod _) hpq (by omega)
    rw [Nat.zero_add, Nat.zero_add, ← pad_net] at hle
    have hp : p < count := by omega
    simp only [padZ] at hle
    rw [if_pos hp, if_pos hq] at hle
    have hkey := key_net count u
    rw [← hkey] at hle
    exact hle

/-- Witness: at count 4 the sorted output is a permutation of the input and
slot 3's key is at most slot 1's key. -/
theorem tf_c7_witness :
    ((List.range 4).map (cuda_sort_descending 4 (fun p => 10 + p))).Perm
        ((List.range 4).map (fun p => 10 + p)) ∧
    cuda_key (cuda_sort_descending 4 (fun p => 10 + p) 3) ≤
      cuda_key (cuda_sort_descending 4 (fun p => 10 + p) 1) :=
  ⟨(tf_c7 4 (fun p => 10 + p)).1,
   (tf_c7 4 (fun p => 10 + p)).2 1 3 (by norm_num) (by norm_num)⟩

end TFCuda
